import Mathlib

/-!
Shallow embedding of the Etymovis repository layout/fetch logic.

Conventions of the embedding:
* JavaScript strings are Lean `String`s.  Fields that TypeScript types as
  `string` but that may be `undefined` at runtime (the raw tree arrives as
  parsed JSON) are `Option String`; `none` models `undefined`.
* JavaScript numbers that take part in layout arithmetic are modelled as `ℚ`
  (all layout arithmetic in the source is exact on dyadic rationals, so `ℚ`
  reproduces it exactly).
* `toLowerCase`, `trim` and `String.prototype.includes` are re-implemented
  over `List Char` so that every definition is executable by the kernel.
* The in-place mutation of the per-layout `Map` of nodes is modelled by
  explicit state passing of the list of map entries in insertion order;
  recursions whose termination relies on the tree shape of the data carry a
  fuel argument that is large enough on every well-formed input.
-/

/-- JavaScript `s.toLowerCase()` (ASCII case folding, which is all the source
relies on). -/
def jsToLower (s : String) : String := ⟨s.data.map Char.toLower⟩

/-- Helper for `jsIncludes`: does the second char list start with the first? -/
def charsStartWith : List Char → List Char → Bool
  | [], _ => true
  | _ :: _, [] => false
  | a :: as, b :: bs => a == b && charsStartWith as bs

/-- Helper for `jsIncludes`: does the needle occur contiguously in the
haystack? -/
def charsContain (needle : List Char) : List Char → Bool
  | [] => charsStartWith needle []
  | b :: bs => charsStartWith needle (b :: bs) || charsContain needle bs

/-- JavaScript `s.includes(sub)`: contiguous substring test. -/
def jsIncludes (s sub : String) : Bool := charsContain sub.data s.data

/-- JavaScript `s.trim()`: strip whitespace from both ends. -/
def jsTrim (s : String) : String :=
  ⟨((s.data.dropWhile Char.isWhitespace).reverse.dropWhile Char.isWhitespace).reverse⟩

/-- JavaScript truthiness of a possibly-undefined string: `undefined` and the
empty string are falsy, every other string is truthy. -/
def optTruthy (o : Option String) : Bool :=
  match o with
  | none => false
  | some s => !(s == "")

/-- The raw hierarchical record returned by the etymology service
(`EtymologyTree` in `types.ts`).  `word`/`language`/`meaning` are
`Option String` because the value arrives as parsed JSON and any field may be
absent; an absent or `null` `children` array behaves exactly like `[]` in the
source (`tree.children?.forEach`), so `children` is a plain list. -/
inductive EtymologyTree where
  | mk (word language meaning : Option String) (children : List EtymologyTree)

def EtymologyTree.word : EtymologyTree → Option String
  | .mk w _ _ _ => w

def EtymologyTree.language : EtymologyTree → Option String
  | .mk _ l _ _ => l

def EtymologyTree.meaning : EtymologyTree → Option String
  | .mk _ _ m _ => m

def EtymologyTree.children : EtymologyTree → List EtymologyTree
  | .mk _ _ _ cs => cs

/-- The flattened node record (`MindmapNode` in `types.ts`).  `era` and
`context` are omitted: no flattener in the source ever sets them. -/
structure MindmapNode where
  id : String
  text : String
  word : String
  language : String
  languageFamily : String
  meaning : Option String
  parentId : Option String
  childrenIds : List String
  level : Nat
  isExpanded : Bool
  x : ℚ
  y : ℚ
  width : ℚ
  height : ℚ
  color : String
  highlighted : Bool
  subtreeHeight : ℚ
  subtreeWidth : ℚ
  childrenYStart : ℚ
deriving DecidableEq

/-- Id generation shared by every flattener:
`` `${word}-${language}-${level}-${index}` ``. -/
def mkId (w l : String) (level index : Nat) : String :=
  w ++ "-" ++ l ++ "-" ++ Nat.repr level ++ "-" ++ Nat.repr index

/-- Lookup in the JS `Map` of nodes (`nodesMap.get(id)`), the map being kept
as its list of entries in insertion order. -/
def getNode (st : List MindmapNode) (id : String) : Option MindmapNode :=
  st.find? (fun n => n.id == id)

/-- In-place mutation of the entry with the given id (writing a field of the
object stored in the JS `Map`). -/
def setNode (st : List MindmapNode) (n : MindmapNode) : List MindmapNode :=
  st.map (fun m => if m.id == n.id then n else m)

/-- `new Map(flatNodes.map(node => [node.id, { ...node, x: -1000, y: -1000 }]))`:
later entries with a duplicate id overwrite the earlier value but keep the
first insertion position. -/
def mkNodesMap (flat : List MindmapNode) : List MindmapNode :=
  flat.foldl
    (fun st n =>
      let fresh := { n with x := -1000, y := -1000 }
      if (getNode st fresh.id).isSome then setNode st fresh else st ++ [fresh])
    []

namespace TreeDiagram

def NODE_WIDTH : ℚ := 220
def NODE_HEIGHT : ℚ := 80
def HORIZONTAL_SPACING : ℚ := 120
def VERTICAL_SPACING : ℚ := 60
def LEVEL_OFFSET : ℚ := 300

def LANGUAGE_FAMILY_COLORS : List (String × String) :=
  [("PIE", "#4A5D45"), ("Proto-Germanic", "#964B3B"), ("Latin", "#C27B66"),
   ("Greek", "#3B5B66"), ("Old English", "#5E7153"), ("English", "#D4A373"),
   ("Misc. Germanic", "#7C677F"), ("Other", "#A68A78")]

/-- `LANGUAGE_FAMILY_COLORS[fam] || LANGUAGE_FAMILY_COLORS['Other']`. -/
def colorFor (fam : String) : String :=
  match LANGUAGE_FAMILY_COLORS.find? (fun p => p.1 == fam) with
  | some p => p.2
  | none => "#A68A78"

/-- `getLanguageFamily` of `TreeDiagram`; the `typeof language !== 'string'`
guard is vacuous here because the flattener only calls it on a present
string. -/
def getLanguageFamily (language : String) : String :=
  let l := jsToLower language
  if jsIncludes l "pie" || jsIncludes l "proto-indo" then "PIE"
  else if jsIncludes l "proto-germanic" then "Proto-Germanic"
  else if jsIncludes l "latin" || jsIncludes l "french" || jsIncludes l "italic" then "Latin"
  else if jsIncludes l "greek" then "Greek"
  else if jsIncludes l "old english" then "Old English"
  else if jsIncludes l "english" then "English"
  else if jsIncludes l "germanic" then "Misc. Germanic"
  else "Other"

/-- The `childrenIds` pushes of `flattenTree`: one id per child that passes
the `child && child.word && child.language` guard, indexed by the `forEach`
position. -/
def childIds (childLevel : Nat) : Nat → List EtymologyTree → List String
  | _, [] => []
  | i, c :: cs =>
    (if optTruthy c.word && optTruthy c.language then
        [mkId (c.word.getD "") (c.language.getD "") childLevel i]
      else []) ++ childIds childLevel (i + 1) cs

mutual

/-- `flattenTree` of `TreeDiagram` (`src/unnamed/part_007`, lines 56-94):
skips the whole subtree when `word` or `language` is falsy, otherwise emits
the node followed by the flattening of its valid children, indexed by their
`forEach` position. -/
def flattenTree : EtymologyTree → Option String → Nat → Nat → List MindmapNode
  | .mk word language meaning children, parentId, level, index =>
    if optTruthy word && optTruthy language then
      let w := word.getD ""
      let l := language.getD ""
      let id := mkId w l level index
      let languageFamily := getLanguageFamily l
      let currentNode : MindmapNode :=
        { id := id
          text := l ++ ": " ++ w
          word := w
          language := l
          languageFamily := languageFamily
          meaning := meaning
          parentId := parentId
          childrenIds := childIds (level + 1) 0 children
          level := level
          isExpanded := true
          x := 0, y := 0
          width := NODE_WIDTH, height := NODE_HEIGHT
          color := colorFor languageFamily
          highlighted := false
          subtreeHeight := 0, subtreeWidth := 0, childrenYStart := 0 }
      currentNode :: flattenChildren id (level + 1) 0 children
    else []

/-- The `tree.children?.forEach((child, childIndex) => ...)` loop of
`flattenTree`: recurse into each child passing the guard, keeping the
positional `childIndex` even across skipped children. -/
def flattenChildren (parentId : String) (childLevel : Nat) :
    Nat → List EtymologyTree → List MindmapNode
  | _, [] => []
  | i, c :: cs =>
    (if optTruthy c.word && optTruthy c.language then
        flattenTree c (some parentId) childLevel i
      else []) ++ flattenChildren parentId childLevel (i + 1) cs

end

/-- The `while (current.parentId)` visibility walk of `calculateLayout`
(`part_007`, lines 100-108), with fuel standing in for the unbounded `while`
loop; on every well-formed input the parent chain is shorter than the map, so
a fuel of `st.length + 1` never runs out. -/
def visibleWalk (st : List MindmapNode) : Nat → MindmapNode → Bool
  | 0, _ => false
  | fuel + 1, current =>
    if !optTruthy current.parentId then true
    else
      match getNode st (current.parentId.getD "") with
      | none => false
      | some parent => if !parent.isExpanded then false else visibleWalk st fuel parent

/-- The `children.forEach` accumulation loop of `calculateSubtreeDimensions`
(`part_007`, lines 126-130): thread the map state, sum the children heights
plus one `VERTICAL_SPACING` each, track the maximal child width.  The child
recursion is passed in as `f`. -/
def dimsWalk (f : List MindmapNode → String → List MindmapNode × ℚ × ℚ) :
    List MindmapNode → List MindmapNode × ℚ × ℚ → List MindmapNode × ℚ × ℚ
  | [], acc => acc
  | c :: cs, acc =>
    let next := f acc.1 c.id
    dimsWalk f cs (next.1, acc.2.1 + next.2.1 + VERTICAL_SPACING, max acc.2.2 next.2.2)

/-- `calculateSubtreeDimensions` (`part_007`, lines 113-137): recursively
writes `subtreeHeight`/`subtreeWidth` into the map entries and returns
`(map, totalHeight, maxWidth)`.  The fuel-exhaustion branch returns
`(st, 0, 0)` and is never taken on well-formed input. -/
def calculateSubtreeDimensions (visible : List MindmapNode) :
    Nat → List MindmapNode → String → List MindmapNode × ℚ × ℚ
  | 0, st, _ => (st, 0, 0)
  | fuel + 1, st, nodeId =>
    match getNode st nodeId with
    | none => (st, 0, 0)
    | some node =>
      let children := visible.filter (fun c => c.parentId == some nodeId)
      if children.isEmpty then
        (setNode st { node with subtreeHeight := NODE_HEIGHT, subtreeWidth := NODE_WIDTH },
          NODE_HEIGHT, NODE_WIDTH)
      else
        let folded := dimsWalk (fun st2 cid => calculateSubtreeDimensions visible fuel st2 cid)
          children (st, 0, 0)
        let currentChildrenHeight := folded.2.1 - VERTICAL_SPACING
        let newHeight := max NODE_HEIGHT currentChildrenHeight
        let newWidth := NODE_WIDTH + LEVEL_OFFSET + folded.2.2
        match getNode folded.1 nodeId with
        | none => (folded.1, newHeight, newWidth)
        | some node2 =>
          (setNode folded.1 { node2 with subtreeHeight := newHeight, subtreeWidth := newWidth },
            newHeight, newWidth)

/-- The `children.forEach` positioning loop of `positionSubtree` (`part_007`,
lines 153-156): position each child one `LEVEL_OFFSET` to the right,
threading the running y offset.  The child recursion is passed in as `f`. -/
def posWalk (f : List MindmapNode → String → ℚ → ℚ → List MindmapNode × ℚ)
    (curX : ℚ) : List MindmapNode → List MindmapNode × ℚ → List MindmapNode × ℚ
  | [], acc => acc
  | c :: cs, acc => posWalk f curX cs (f acc.1 c.id (curX + LEVEL_OFFSET) acc.2)

/-- `positionSubtree` (`part_007`, lines 141-167): assigns `x` on entry,
recurses into the children stacking them vertically, then centers the parent
between its first and last child; returns `(map, next y offset)`. -/
def positionSubtree (visible : List MindmapNode) :
    Nat → List MindmapNode → String → ℚ → ℚ → List MindmapNode × ℚ
  | 0, st, _, _, curY => (st, curY)
  | fuel + 1, st, nodeId, curX, curY =>
    match getNode st nodeId with
    | none => (st, curY)
    | some node =>
      let children := visible.filter (fun c => c.parentId == some nodeId)
      let st1 := setNode st { node with x := curX }
      match children with
      | [] =>
        let st2 := setNode st1 { node with x := curX, y := curY + NODE_HEIGHT / 2 }
        (st2, curY + node.subtreeHeight + VERTICAL_SPACING)
      | c0 :: rest =>
        let folded := posWalk
          (fun st2 cid x y => positionSubtree visible fuel st2 cid x y)
          curX (c0 :: rest) (st1, curY)
        let st2 := folded.1
        match getNode st2 nodeId with
        | none => (st2, curY)
        | some node2 =>
          let firstChild := getNode st2 c0.id
          let lastChild := getNode st2 (((c0 :: rest).getLast?).getD c0).id
          let st3 :=
            match firstChild, lastChild with
            | some fc, some lc => setNode st2 { node2 with y := (fc.y + lc.y) / 2 }
            | _, _ => setNode st2 { node2 with y := curY + node2.subtreeHeight / 2 }
          (st3, curY + node2.subtreeHeight + VERTICAL_SPACING)

/-- `calculateLayout` of `TreeDiagram` (`part_007`, lines 96-188).  Note two
aliasing quirks of the source that the embedding reproduces: the root call of
`positionSubtree` reads `rootNode.subtreeHeight` from the *input* node, not
from the map copy that `calculateSubtreeDimensions` updated, and the bounding
box used for horizontal centering is computed over the *input* nodes
(`visibleNodes`), not over the positioned map copies. -/
def calculateLayout (flatNodes : List MindmapNode) (containerWidth containerHeight : ℚ) :
    List MindmapNode :=
  if flatNodes.isEmpty then [] else
  let nodesMap := mkNodesMap flatNodes
  let visible := flatNodes.filter (fun n => visibleWalk nodesMap (nodesMap.length + 1) n)
  match visible.find? (fun n => !optTruthy n.parentId) with
  | none => nodesMap
  | some rootNode =>
    let fuel := nodesMap.length + 1
    let dims := calculateSubtreeDimensions visible fuel nodesMap rootNode.id
    let positioned := positionSubtree visible fuel dims.1 rootNode.id (NODE_WIDTH / 2)
      (containerHeight / 2 - rootNode.subtreeHeight / 2)
    let st2 := positioned.1
    match visible.filter (fun n => decide ((-1000 : ℚ) < n.x)) with
    | [] => st2
    | b :: bs =>
      let minX := bs.foldl (fun m n => min m (n.x - NODE_WIDTH / 2)) (b.x - NODE_WIDTH / 2)
      let maxX := bs.foldl (fun m n => max m (n.x + NODE_WIDTH / 2)) (b.x + NODE_WIDTH / 2)
      let layoutWidth := maxX - minX
      let offsetX := containerWidth / 2 - layoutWidth / 2 - minX
      st2.map (fun n => if (-1000 : ℚ) < n.x then { n with x := n.x + offsetX } else n)

end TreeDiagram

namespace FlowchartDiagram

def NODE_WIDTH : ℚ := 180
def NODE_HEIGHT : ℚ := 90
def HORIZONTAL_SPACING : ℚ := 100
def VERTICAL_SPACING : ℚ := 40

def LANGUAGE_FAMILY_COLORS : List (String × String) :=
  [("PIE", "#4A5D45"), ("Proto-Germanic", "#964B3B"), ("Latin", "#C27B66"),
   ("Greek", "#3B5B66"), ("Old English", "#5E7153"), ("English", "#D4A373"),
   ("Misc. Germanic", "#7C677F"), ("Other", "#A68A78")]

def colorFor (fam : String) : String :=
  match LANGUAGE_FAMILY_COLORS.find? (fun p => p.1 == fam) with
  | some p => p.2
  | none => "#A68A78"

/-- `getLanguageFamily` of `FlowchartDiagram`: same as the `TreeDiagram` one
except that the Latin branch does not test `italic`. -/
def getLanguageFamily (language : String) : String :=
  let l := jsToLower language
  if jsIncludes l "pie" || jsIncludes l "proto-indo" then "PIE"
  else if jsIncludes l "proto-germanic" then "Proto-Germanic"
  else if jsIncludes l "latin" || jsIncludes l "french" then "Latin"
  else if jsIncludes l "greek" then "Greek"
  else if jsIncludes l "old english" then "Old English"
  else if jsIncludes l "english" then "English"
  else if jsIncludes l "germanic" then "Misc. Germanic"
  else "Other"

def childIds (childLevel : Nat) : Nat → List EtymologyTree → List String
  | _, [] => []
  | i, c :: cs =>
    (if optTruthy c.word && optTruthy c.language then
        [mkId (c.word.getD "") (c.language.getD "") childLevel i]
      else []) ++ childIds childLevel (i + 1) cs

mutual

/-- `flattenTree` of `FlowchartDiagram` (lines 55-93): structurally identical
to the `TreeDiagram` one apart from the node size constants and the language
family table. -/
def flattenTree : EtymologyTree → Option String → Nat → Nat → List MindmapNode
  | .mk word language meaning children, parentId, level, index =>
    if optTruthy word && optTruthy language then
      let w := word.getD ""
      let l := language.getD ""
      let id := mkId w l level index
      let languageFamily := getLanguageFamily l
      let currentNode : MindmapNode :=
        { id := id
          text := l ++ ": " ++ w
          word := w
          language := l
          languageFamily := languageFamily
          meaning := meaning
          parentId := parentId
          childrenIds := childIds (level + 1) 0 children
          level := level
          isExpanded := true
          x := 0, y := 0
          width := NODE_WIDTH, height := NODE_HEIGHT
          color := colorFor languageFamily
          highlighted := false
          subtreeHeight := 0, subtreeWidth := 0, childrenYStart := 0 }
      currentNode :: flattenChildren id (level + 1) 0 children
    else []

def flattenChildren (parentId : String) (childLevel : Nat) :
    Nat → List EtymologyTree → List MindmapNode
  | _, [] => []
  | i, c :: cs =>
    (if optTruthy c.word && optTruthy c.language then
        flattenTree c (some parentId) childLevel i
      else []) ++ flattenChildren parentId childLevel (i + 1) cs

end

/-- `calculateLayout` of `FlowchartDiagram` (lines 95-135): group the nodes
by `level`, stack each level group vertically centered, then center the
bounding box (here computed over the map copies) horizontally.  The unused
`maxLevel` binding of the source is omitted. -/
def calculateLayout (flatNodes : List MindmapNode) (containerWidth containerHeight : ℚ) :
    List MindmapNode :=
  if flatNodes.isEmpty then [] else
  let nodesMap := mkNodesMap flatNodes
  let levelKeys := ((flatNodes.map (fun n => n.level)).eraseDups).mergeSort
    (fun a b => decide (a ≤ b))
  let st := levelKeys.foldl
    (fun st lvl =>
      let lvlNodes := flatNodes.filter (fun n => n.level == lvl)
      let totalH := (lvlNodes.length : ℚ) * NODE_HEIGHT +
        ((lvlNodes.length : ℚ) - 1) * VERTICAL_SPACING
      let startY := containerHeight / 2 - totalH / 2
      (lvlNodes.enum).foldl
        (fun st pair =>
          match getNode st pair.2.id with
          | none => st
          | some n =>
            setNode st
              { n with
                x := (lvl : ℚ) * (NODE_WIDTH + HORIZONTAL_SPACING) + NODE_WIDTH / 2,
                y := startY + (pair.1 : ℚ) * (NODE_HEIGHT + VERTICAL_SPACING) + NODE_HEIGHT / 2 })
        st)
    nodesMap
  match st with
  | [] => []
  | b :: bs =>
    let minX := bs.foldl (fun m n => min m (n.x - NODE_WIDTH / 2)) (b.x - NODE_WIDTH / 2)
    let maxX := bs.foldl (fun m n => max m (n.x + NODE_WIDTH / 2)) (b.x + NODE_WIDTH / 2)
    let layoutW := maxX - minX
    let offsetX := containerWidth / 2 - layoutW / 2 - minX
    st.map (fun n => { n with x := n.x + offsetX })

end FlowchartDiagram

namespace ForceDirectedGraph

def NODE_RADIUS_BASE : ℚ := 15

def LANGUAGE_FAMILY_COLORS : List (String × String) :=
  [("PIE", "#4A5D45"), ("Proto-Germanic", "#964B3B"), ("Latin", "#C27B66"),
   ("Greek", "#3B5B66"), ("Old English", "#5E7153"), ("English", "#D4A373"),
   ("Misc. Germanic", "#7C677F"), ("Other", "#A68A78")]

def colorFor (fam : String) : String :=
  match LANGUAGE_FAMILY_COLORS.find? (fun p => p.1 == fam) with
  | some p => p.2
  | none => "#A68A78"

/-- `getLanguageFamily` of `ForceDirectedGraph`: case-sensitive `includes`
tests on the raw language string. -/
def getLanguageFamily (language : String) : String :=
  if jsIncludes language "PIE" then "PIE"
  else if jsIncludes language "Proto-Germanic" then "Proto-Germanic"
  else if jsIncludes language "Latin" || jsIncludes language "Old French" ||
      jsIncludes language "French" then "Latin"
  else if jsIncludes language "Greek" then "Greek"
  else if jsIncludes language "Old English" then "Old English"
  else if jsIncludes language "English" && !jsIncludes language "Old" then "English"
  else if jsIncludes language "Germanic" then "Misc. Germanic"
  else "Other"

/-- `typeof x === 'string'`: in the embedding, exactly the `some` values. -/
def isStringVal (o : Option String) : Bool := o.isSome

def childIds (childLevel : Nat) : Nat → List EtymologyTree → List String
  | _, [] => []
  | i, c :: cs =>
    (if isStringVal c.word && isStringVal c.language then
        [mkId (c.word.getD "") (c.language.getD "") childLevel i]
      else []) ++ childIds childLevel (i + 1) cs

mutual

/-- `flattenTree` of `ForceDirectedGraph` (lines 48-84).  Its validity guard
differs from the other flatteners: it only skips a node whose `word` or
`language` is not a string (`typeof tree.word !== 'string'`), so nodes whose
`word` or `language` is the *empty* string are kept. -/
def flattenTree : EtymologyTree → Option String → Nat → Nat → List MindmapNode
  | .mk word language meaning children, parentId, level, index =>
    if isStringVal word && isStringVal language then
      let w := word.getD ""
      let l := language.getD ""
      let id := mkId w l level index
      let languageFamily := getLanguageFamily l
      let currentNode : MindmapNode :=
        { id := id
          text := w
          word := w
          language := l
          languageFamily := languageFamily
          meaning := meaning
          parentId := parentId
          childrenIds := childIds (level + 1) 0 children
          level := level
          isExpanded := true
          x := 0, y := 0
          width := NODE_RADIUS_BASE, height := NODE_RADIUS_BASE
          color := colorFor languageFamily
          highlighted := false
          subtreeHeight := 0, subtreeWidth := 0, childrenYStart := 0 }
      currentNode :: flattenChildren id (level + 1) 0 children
    else []

def flattenChildren (parentId : String) (childLevel : Nat) :
    Nat → List EtymologyTree → List MindmapNode
  | _, [] => []
  | i, c :: cs =>
    (if isStringVal c.word && isStringVal c.language then
        flattenTree c (some parentId) childLevel i
      else []) ++ flattenChildren parentId childLevel (i + 1) cs

end

end ForceDirectedGraph

namespace GeminiService

/-- Outcome of `JSON.parse` on the cleaned response text.  `JSON.parse` is a
host builtin, so it is abstracted as an oracle value attached to the attempt:
either a parsed `EtymologyTree` or a thrown error carrying a message. -/
inductive JsonResult where
  | ok (t : EtymologyTree)
  | err (msg : String)

/-- One attempt of `ai.models.generateContent` together with the parse
outcome of its text: either a response whose `text` may be absent, or a
thrown error (network failure, rate limit, ...) carrying a message. -/
inductive Attempt where
  | response (text : Option String) (parsed : JsonResult)
  | genError (msg : String)

/-- What one run of the `try` block of `fetchEtymology` does: either return a
value (`null` or the parsed tree), with the depth-check warning it logged, or
throw an error with a message. -/
inductive TryOut where
  | retVal (v : Option EtymologyTree) (warn : List String)
  | thrown (msg : String)

def depthWarning (word : String) : String :=
  "Etymology result depth check failed for: " ++ word

/-- The `try` block of `fetchEtymology` (`geminiService.ts`, lines 34-57):
`response.text?.trim()` must be truthy, otherwise resolve `null`; then
`JSON.parse` of the cleaned text either yields the tree — returned even when
its `children` are missing or empty, with only a `console.warn` — or throws
into the `catch`. -/
def tryBody (word : String) : Attempt → TryOut
  | .genError m => .thrown m
  | .response text parsed =>
    let t := (text.map jsTrim).getD ""
    if t == "" then .retVal none []
    else
      match parsed with
      | .ok data =>
        .retVal (some data) (if data.children.isEmpty then [depthWarning word] else [])
      | .err m => .thrown m

def retryWarning (retries : Nat) : String :=
  "Rate limit hit. Retrying in " ++ Nat.repr (4 - retries) ++ "s... (" ++
    Nat.repr retries ++ " retries left)"

/-- Result of `fetchEtymology`: the promise either resolves
(`Except.ok`, carrying `null` or a tree) or rejects with the thrown error
message (`Except.error`); `delays` collects the backoff `delay` arguments in
order, `warnings` the `console.warn` messages. -/
structure FetchResult where
  result : Except String (Option EtymologyTree)
  delays : List ℤ
  warnings : List String

/-- `fetchEtymology` (`geminiService.ts`, lines 16-69) over an oracle giving
the outcome of each successive attempt (`oracle idx` is attempt number
`idx`).  On a thrown error whose message contains `'429'` with retries left,
it waits `1000 * (4 - retries)` ms and recurses with `retries - 1`; any other
error is re-thrown. -/
def fetchEtymology (oracle : Nat → Attempt) (word : String) (idx : Nat)
    (retries : Nat) : FetchResult :=
  match tryBody word (oracle idx) with
  | .retVal v w => ⟨.ok v, [], w⟩
  | .thrown m =>
    if h : jsIncludes m "429" ∧ 0 < retries then
      let rest := fetchEtymology oracle word (idx + 1) (retries - 1)
      ⟨rest.result, (1000 * (4 - (retries : ℤ))) :: rest.delays,
        retryWarning retries :: rest.warnings⟩
    else ⟨.error m, [], []⟩
termination_by retries
decreasing_by omega

end GeminiService

namespace SearchInput

/-- `handleBloom` of `SearchInput` (`part_011`, lines 11-15): calls
`onBloom(word)` — with the *raw* `word`, not `word.trim()` — exactly when the
trimmed word is non-empty.  The returned value is the argument passed to
`onBloom`, or `none` when no call is made. -/
def handleBloom (word : String) : Option String :=
  if !(jsTrim word == "") then some word else none

end SearchInput

namespace App

def failMessage : String := "Bloom failed. Try another word."

/-- The slice of the `App` component state that `handleBloom` touches.
`pending` models the continuation suspended on `await fetchEtymology(word)`:
`some w` when a request for `w` is in flight, `none` otherwise. -/
structure AppState where
  isLoading : Bool
  etymologyData : Option EtymologyTree
  currentSearchWord : String
  error : Option String
  pending : Option String

def initialState : AppState :=
  { isLoading := false, etymologyData := none, currentSearchWord := ""
    error := none, pending := none }

/-- Events of the search state machine: a user search action
(`handleBloom(word)`) and the settlement of the in-flight fetch promise
(`Except.ok v` for a resolution with `v`, `Except.error m` for a
rejection). -/
inductive Ev where
  | bloom (word : String)
  | resolve (outcome : Except String (Option EtymologyTree))

/-- `handleBloom` of `App` (`part_000`, lines 177-213) split at its single
`await`.  The pre-`await` half: `if (!word || isLoading) return;` then reset
the state and issue the fetch.  The post-`await` half (`resolve`): on a tree,
store it; on `null` (`throw` of `"Could not find lineage."`) or a rejection,
set the generic error message; `finally` clears `isLoading`. -/
def step (s : AppState) : Ev → AppState
  | .bloom word =>
    if word == "" || s.isLoading then s
    else
      { s with
        currentSearchWord := word
        isLoading := true
        error := none
        etymologyData := none
        pending := some word }
  | .resolve outcome =>
    match s.pending with
    | none => s
    | some _ =>
      match outcome with
      | .ok (some data) =>
        { s with etymologyData := some data, isLoading := false, pending := none }
      | .ok none =>
        { s with error := some failMessage, isLoading := false, pending := none }
      | .error _ =>
        { s with error := some failMessage, isLoading := false, pending := none }

def run (s : AppState) (evs : List Ev) : AppState := evs.foldl step s

end App

/-!
Proof-support definitions: a structural description of the decimal digit
string produced by `Nat.repr` (used to reason about the id format), and the
evaluation map that reads it back. -/

/-- The decimal digit list of `n`, most significant first: the list that
`Nat.toDigitsCore 10` produces with sufficient fuel. -/
def decDigits (n : Nat) : List Char :=
  if _h : n < 10 then [Nat.digitChar n]
  else decDigits (n / 10) ++ [Nat.digitChar (n % 10)]
termination_by n
decreasing_by exact Nat.div_lt_self (by omega) (by omega)

/-- Numeric value of a decimal digit character. -/
def digitVal (c : Char) : Nat := c.toNat - 48

/-- Read a digit list back into the number it denotes. -/
def evalDigits (l : List Char) : Nat := l.foldl (fun a c => 10 * a + digitVal c) 0

/-!
Verification predicates and concrete example inputs used by the theorems.
-/

/-- Relation between an old and a new map entry: same id, level and parent
link (the write only touched other fields). -/
def SameKey (m m2 : MindmapNode) : Prop :=
  m2.id = m.id ∧ m2.level = m.level ∧ m2.parentId = m.parentId

/-- Like `SameKey` but additionally preserving the `x` coordinate. -/
def SameKeyX (m m2 : MindmapNode) : Prop := SameKey m m2 ∧ m2.x = m.x

/-- The ids of the node list are pairwise distinct. -/
def idsNodup (st : List MindmapNode) : Prop := (st.map (fun n => n.id)).Nodup

namespace TreeDiagram

/-- Every node of the state either still carries the `-1000` sentinel or sits
in the column of its level: `x = B + level * LEVEL_OFFSET`. -/
def XInv (B : ℚ) (st : List MindmapNode) : Prop :=
  ∀ n ∈ st, n.x = -1000 ∨ n.x = B + (n.level : ℚ) * LEVEL_OFFSET

/-- Looking a visible node up in the map finds an entry of the same level. -/
def LevelAgree (visible st : List MindmapNode) : Prop :=
  ∀ c ∈ visible, ∀ n, getNode st c.id = some n → n.level = c.level

/-- A visible node is one level below the map entry its parent link hits. -/
def ParentLevel (visible st : List MindmapNode) : Prop :=
  ∀ c ∈ visible, ∀ pid, c.parentId = some pid → ∀ p, getNode st pid = some p →
    c.level = p.level + 1

/-- Invariant carried through `positionSubtree`. -/
def LayoutInv (B : ℚ) (visible st : List MindmapNode) : Prop :=
  idsNodup st ∧ LevelAgree visible st ∧ ParentLevel visible st ∧ XInv B st

mutual

/-- The `(word, language, level, index)` quadruples of the nodes that
`flattenTree` keeps, in emission order; `flattenTree` builds each id from
exactly this data. -/
def quads : EtymologyTree → Nat → Nat → List (String × String × Nat × Nat)
  | .mk word language _ children, level, index =>
    if optTruthy word && optTruthy language then
      (word.getD "", language.getD "", level, index) :: quadsChildren (level + 1) 0 children
    else []

def quadsChildren (childLevel : Nat) : Nat → List EtymologyTree →
    List (String × String × Nat × Nat)
  | _, [] => []
  | i, c :: cs =>
    (if optTruthy c.word && optTruthy c.language then quads c childLevel i else []) ++
      quadsChildren childLevel (i + 1) cs

end

end TreeDiagram

/-- Single-node tree (root only): the edge case of C8. -/
def exSingle : EtymologyTree := .mk (some "night") (some "English") none []

/-- The `TreeDiagram` flattening of `exSingle`, written out. -/
def exNode : MindmapNode :=
  { id := "night-English-0-0", text := "English: night", word := "night",
    language := "English", languageFamily := "English", meaning := none,
    parentId := none, childrenIds := [], level := 0, isExpanded := true,
    x := 0, y := 0, width := 220, height := 80, color := "#D4A373",
    highlighted := false, subtreeHeight := 0, subtreeWidth := 0, childrenYStart := 0 }

/-- Two-level chain used against the column-offset claim. -/
def exChain2 : EtymologyTree :=
  .mk (some "night") (some "English") none [.mk (some "niht") (some "Old English") none []]

/-- The `TreeDiagram` flattening of `exChain2`, written out: root node. -/
def exRoot2 : MindmapNode :=
  { id := "night-English-0-0", text := "English: night", word := "night",
    language := "English", languageFamily := "English", meaning := none,
    parentId := none, childrenIds := ["niht-Old English-1-0"], level := 0,
    isExpanded := true, x := 0, y := 0, width := 220, height := 80, color := "#D4A373",
    highlighted := false, subtreeHeight := 0, subtreeWidth := 0, childrenYStart := 0 }

/-- The `TreeDiagram` flattening of `exChain2`, written out: child node. -/
def exChild2 : MindmapNode :=
  { id := "niht-Old English-1-0", text := "Old English: niht", word := "niht",
    language := "Old English", languageFamily := "Old English", meaning := none,
    parentId := some "night-English-0-0", childrenIds := [], level := 1,
    isExpanded := true, x := 0, y := 0, width := 220, height := 80, color := "#5E7153",
    highlighted := false, subtreeHeight := 0, subtreeWidth := 0, childrenYStart := 0 }

/-- Three-level chain (hyphen-free words and languages, all quadruples
distinct). -/
def exChain3 : EtymologyTree :=
  .mk (some "night") (some "English") none
    [.mk (some "niht") (some "Old English") none
      [.mk (some "nahts") (some "Germanic") none []]]

/-- Tree with two distinct inner nodes whose subtrees each contain a child
with the same word and language at the same depth and sibling position: the
two cousins receive the same id. -/
def exCousins : EtymologyTree :=
  .mk (some "r") (some "L") none
    [.mk (some "p") (some "L") none [.mk (some "a") (some "b") none []],
     .mk (some "q") (some "L") none [.mk (some "a") (some "b") none []]]

/-- Root whose word is the *empty* string (present but falsy). -/
def exEmptyWord : EtymologyTree := .mk (some "") (some "Latin") none []

/-- A valid parent with an invalid middle child (empty `word`) whose subtree
contains a valid grandchild, between two valid siblings. -/
def exDropTree : EtymologyTree :=
  .mk (some "root") (some "English") none
    [.mk (some "left") (some "Latin") none [],
     .mk (some "") (some "Greek") none [.mk (some "lost") (some "Greek") none []],
     .mk (some "right") (some "Latin") none []]

/-- Result trees for two competing searches. -/
def exTreeA : EtymologyTree := .mk (some "apple") (some "English") none []

def exTreeB : EtymologyTree := .mk (some "bread") (some "English") none []

/-- Root whose word matches the search query "mag". -/
def exMagic : EtymologyTree := .mk (some "magic") (some "English") none []

/-- The word that actually reaches `fetchEtymology` when the user submits
`input` while the app is (not) loading: `SearchInput.handleBloom` forwards
the raw input only when its trim is non-empty, and `App.handleBloom` bails
out on a falsy word or while a request is in flight. -/
def App.sentWord (input : String) (loading : Bool) : Option String :=
  match SearchInput.handleBloom input with
  | none => none
  | some w => if w == "" || loading then none else some w

/-- Structural induction for the nested inductive `EtymologyTree`. -/
def EtymologyTree.inductionOn {P : EtymologyTree → Prop}
    (h : ∀ w l m cs, (∀ c ∈ cs, P c) → P (.mk w l m cs)) : ∀ t, P t
  | .mk w l m cs =>
    h w l m cs (fun c hc =>
      have : sizeOf c < sizeOf (EtymologyTree.mk w l m cs) := by
        have := List.sizeOf_lt_of_mem hc
        simp only [EtymologyTree.mk.sizeOf_spec]
        omega
      EtymologyTree.inductionOn h c)
termination_by t => sizeOf t

/-!
Theorems.  First a toolbox about the state operations `getNode`/`setNode`
and key-preserving state transitions.
-/

theorem getNode_nil (i : String) : getNode [] i = none := rfl

theorem mem_setNode {st : List MindmapNode} {v m : MindmapNode}
    (h : m ∈ setNode st v) : m ∈ st ∨ m = v := by
  rcases List.mem_map.1 h with ⟨a, ha, rfl⟩
  by_cases hid : (a.id == v.id) = true
  · simp [hid]
  · simp [hid]
    exact Or.inl ha

theorem getNode_some_id {st : List MindmapNode} {i : String} {n : MindmapNode}
    (h : getNode st i = some n) : n.id = i ∧ n ∈ st := by
  unfold getNode at h
  have hmem := List.mem_of_find?_eq_some h
  have hp := List.find?_some h
  exact ⟨by simpa using hp, hmem⟩

theorem getNode_cons (b : MindmapNode) (bs : List MindmapNode) (i : String) :
    getNode (b :: bs) i = if (b.id == i) = true then some b else getNode bs i := by
  simp only [getNode, List.find?_cons]
  by_cases h : (b.id == i) = true
  · simp [h]
  · simp [h]

theorem setNode_cons (a : MindmapNode) (as : List MindmapNode) (v : MindmapNode) :
    setNode (a :: as) v = (if (a.id == v.id) = true then v else a) :: setNode as v := rfl

theorem getNode_setNode (st : List MindmapNode) (v : MindmapNode) (i : String) :
    getNode (setNode st v) i = (getNode st i).map (fun m => if m.id == v.id then v else m) := by
  induction st with
  | nil => rfl
  | cons a as ih =>
    rw [setNode_cons]
    by_cases hv : (a.id == v.id) = true
    · rw [if_pos hv]
      have hav : a.id = v.id := by simpa using hv
      by_cases hi : (a.id == i) = true
      · have hvi : (v.id == i) = true := by rw [← hav]; exact hi
        rw [getNode_cons, if_pos hvi, getNode_cons, if_pos hi]
        simp [hav]
      · have hvi : ¬(v.id == i) = true := by rw [← hav]; exact hi
        rw [getNode_cons, if_neg hvi, getNode_cons, if_neg hi, ih]
    · rw [if_neg hv]
      by_cases hi : (a.id == i) = true
      · rw [getNode_cons, if_pos hi, getNode_cons, if_pos hi]
        have hne : a.id ≠ v.id := by simpa using hv
        simp [hne]
      · rw [getNode_cons, if_neg hi, getNode_cons, if_neg hi, ih]

theorem idsNodup_unique {st : List MindmapNode} (h : idsNodup st)
    {m n : MindmapNode} (hm : m ∈ st) (hn : n ∈ st) (hid : m.id = n.id) : m = n := by
  unfold idsNodup at h
  have := List.inj_on_of_nodup_map h
  exact this hm hn hid

theorem getNode_eq_of_mem {st : List MindmapNode} (h : idsNodup st)
    {m : MindmapNode} (hm : m ∈ st) : getNode st m.id = some m := by
  unfold getNode
  have hex : (st.find? (fun n => n.id == m.id)).isSome := by
    rw [List.find?_isSome]
    exact ⟨m, hm, by simp⟩
  rcases Option.isSome_iff_exists.1 hex with ⟨n, hn⟩
  have := getNode_some_id hn
  have heq : n = m := idsNodup_unique h this.2 hm this.1
  rw [hn, heq]

theorem sameKey_refl (m : MindmapNode) : SameKey m m := ⟨rfl, rfl, rfl⟩

theorem sameKeyX_refl (m : MindmapNode) : SameKeyX m m := ⟨sameKey_refl m, rfl⟩

theorem sameKey_of_x (m m2 : MindmapNode) (h : SameKeyX m m2) : SameKey m m2 := h.1

theorem forall₂_refl_of {R : MindmapNode → MindmapNode → Prop} (h : ∀ m, R m m) :
    ∀ st, List.Forall₂ R st st
  | [] => List.Forall₂.nil
  | a :: as => List.Forall₂.cons (h a) (forall₂_refl_of h as)

theorem forall₂_trans_of {R : MindmapNode → MindmapNode → Prop}
    (h : ∀ a b c, R a b → R b c → R a c) :
    ∀ {s t u : List MindmapNode}, List.Forall₂ R s t → List.Forall₂ R t u →
      List.Forall₂ R s u := by
  intro s t u hst htu
  induction hst generalizing u with
  | nil => cases htu; exact List.Forall₂.nil
  | cons hab hrest ih =>
    cases htu with
    | cons hbc hrest2 => exact List.Forall₂.cons (h _ _ _ hab hbc) (ih hrest2)

theorem forall₂_mem_right {R : MindmapNode → MindmapNode → Prop}
    {st st' : List MindmapNode} (h : List.Forall₂ R st st') :
    ∀ m2 ∈ st', ∃ m ∈ st, R m m2 := by
  induction h with
  | nil => intro m2 hm2; cases hm2
  | cons hab hrest ih =>
    intro m2 hm2
    rcases List.mem_cons.1 hm2 with rfl | hm2
    · exact ⟨_, List.mem_cons_self _ _, hab⟩
    · rcases ih m2 hm2 with ⟨m, hm, hr⟩
      exact ⟨m, List.mem_cons_of_mem _ hm, hr⟩

theorem mapIds_eq_of_forall₂ {R : MindmapNode → MindmapNode → Prop}
    (hid : ∀ m m2, R m m2 → m2.id = m.id) {st st' : List MindmapNode}
    (h : List.Forall₂ R st st') : st'.map (fun n => n.id) = st.map (fun n => n.id) := by
  induction h with
  | nil => rfl
  | cons hab hrest ih => simp [ih, hid _ _ hab]

theorem getNode_forall₂ {R : MindmapNode → MindmapNode → Prop}
    (hid : ∀ m m2, R m m2 → m2.id = m.id) {st st' : List MindmapNode}
    (h : List.Forall₂ R st st') (i : String) :
    (getNode st i = none ∧ getNode st' i = none) ∨
      ∃ n n2, getNode st i = some n ∧ getNode st' i = some n2 ∧ R n n2 := by
  induction h with
  | nil => exact Or.inl ⟨rfl, rfl⟩
  | cons hab hrest ih =>
    rename_i a b as bs
    rw [getNode_cons, getNode_cons]
    by_cases ha : (a.id == i) = true
    · have hb : (b.id == i) = true := by rw [hid _ _ hab]; exact ha
      rw [if_pos ha, if_pos hb]
      exact Or.inr ⟨a, b, rfl, rfl, hab⟩
    · have hb : ¬(b.id == i) = true := by rw [hid _ _ hab]; exact ha
      rw [if_neg ha, if_neg hb]
      exact ih

theorem forall₂_setNode {R : MindmapNode → MindmapNode → Prop} (hrefl : ∀ m, R m m)
    {v : MindmapNode} : ∀ {st : List MindmapNode}, (∀ m ∈ st, m.id = v.id → R m v) →
      List.Forall₂ R st (setNode st v) := by
  intro st
  induction st with
  | nil => intro _; exact List.Forall₂.nil
  | cons a as ih =>
    intro hv
    rw [setNode_cons]
    refine List.Forall₂.cons ?_ (ih fun m hm h => hv m (List.mem_cons_of_mem _ hm) h)
    by_cases ha : (a.id == v.id) = true
    · rw [if_pos ha]
      exact hv a (List.mem_cons_self _ _) (by simpa using ha)
    · rw [if_neg ha]
      exact hrefl a

theorem idsNodup_of_forall₂ {R : MindmapNode → MindmapNode → Prop}
    (hid : ∀ m m2, R m m2 → m2.id = m.id) {st st' : List MindmapNode}
    (h : List.Forall₂ R st st') (hN : idsNodup st) : idsNodup st' := by
  unfold idsNodup at *
  rw [mapIds_eq_of_forall₂ hid h]
  exact hN

namespace TreeDiagram

theorem levelAgree_of_forall₂ {visible st st' : List MindmapNode}
    (h : List.Forall₂ SameKey st st') (hLA : LevelAgree visible st) :
    LevelAgree visible st' := by
  intro c hc n' hn'
  rcases getNode_forall₂ (fun m m2 hr => hr.1) h c.id with ⟨_, h2⟩ | ⟨n, n2, h1, h2, hr⟩
  · rw [hn'] at h2; cases h2
  · rw [hn'] at h2
    cases h2
    rw [hr.2.1]
    exact hLA c hc n h1

theorem parentLevel_of_forall₂ {visible st st' : List MindmapNode}
    (h : List.Forall₂ SameKey st st') (hPL : ParentLevel visible st) :
    ParentLevel visible st' := by
  intro c hc pid hpid p' hp'
  rcases getNode_forall₂ (fun m m2 hr => hr.1) h pid with ⟨_, h2⟩ | ⟨p, p2, h1, h2, hr⟩
  · rw [hp'] at h2; cases h2
  · rw [hp'] at h2
    cases h2
    rw [hr.2.1]
    exact hPL c hc pid hpid p h1

theorem xinv_of_forall₂X {B : ℚ} {st st' : List MindmapNode}
    (h : List.Forall₂ SameKeyX st st') (hX : XInv B st) : XInv B st' := by
  intro n' hn'
  rcases forall₂_mem_right h n' hn' with ⟨n, hn, hr⟩
  rw [hr.2, hr.1.2.1]
  exact hX n hn

end TreeDiagram

theorem sameKey_trans (a b c : MindmapNode) (h1 : SameKey a b) (h2 : SameKey b c) :
    SameKey a c :=
  ⟨h2.1.trans h1.1, h2.2.1.trans h1.2.1, h2.2.2.trans h1.2.2⟩

theorem sameKeyX_trans (a b c : MindmapNode) (h1 : SameKeyX a b) (h2 : SameKeyX b c) :
    SameKeyX a c :=
  ⟨sameKey_trans a b c h1.1 h2.1, h2.2.trans h1.2⟩

theorem forall₂_setNode_of_get {R : MindmapNode → MindmapNode → Prop}
    (hrefl : ∀ m, R m m) {st : List MindmapNode} {node v : MindmapNode} {nodeId : String}
    (hN : idsNodup st) (hget : getNode st nodeId = some node) (hvid : v.id = node.id)
    (hR : R node v) : List.Forall₂ R st (setNode st v) :=
  forall₂_setNode hrefl fun m hm hmid => by
    have hmn : m = node :=
      idsNodup_unique hN hm (getNode_some_id hget).2 (by rw [hmid, hvid])
    rw [hmn]; exact hR

theorem getNode_setNode_self {st : List MindmapNode} {node v : MindmapNode} {nodeId : String}
    (hget : getNode st nodeId = some node) (hvid : v.id = node.id) :
    getNode (setNode st v) nodeId = some v := by
  rw [getNode_setNode, hget]
  simp [hvid]

namespace TreeDiagram

theorem dimsWalk_pres (Q : List MindmapNode → Prop)
    {f : List MindmapNode → String → List MindmapNode × ℚ × ℚ} :
    ∀ (cs : List MindmapNode) (acc : List MindmapNode × ℚ × ℚ),
      (∀ stA c, c ∈ cs → Q stA → Q (f stA c.id).1) → Q acc.1 →
        Q (dimsWalk f cs acc).1 := by
  intro cs
  induction cs with
  | nil => intro acc _ h; simpa [dimsWalk] using h
  | cons c cs ih =>
    intro acc hf h
    simp only [dimsWalk]
    exact ih _ (fun stA c2 hc2 => hf stA c2 (List.mem_cons_of_mem _ hc2))
      (hf acc.1 c (List.mem_cons_self _ _) h)

theorem posWalk_pres (Q : List MindmapNode → Prop)
    {f : List MindmapNode → String → ℚ → ℚ → List MindmapNode × ℚ} {curX : ℚ} :
    ∀ (cs : List MindmapNode) (acc : List MindmapNode × ℚ),
      (∀ stA y c, c ∈ cs → Q stA → Q (f stA c.id (curX + LEVEL_OFFSET) y).1) → Q acc.1 →
        Q (posWalk f curX cs acc).1 := by
  intro cs
  induction cs with
  | nil => intro acc _ h; simpa [posWalk] using h
  | cons c cs ih =>
    intro acc hf h
    simp only [posWalk]
    exact ih _ (fun stA y c2 hc2 => hf stA y c2 (List.mem_cons_of_mem _ hc2))
      (hf acc.1 acc.2 c (List.mem_cons_self _ _) h)

theorem calcDims_keysX (visible : List MindmapNode) :
    ∀ fuel st nodeId, idsNodup st →
      List.Forall₂ SameKeyX st (calculateSubtreeDimensions visible fuel st nodeId).1 := by
  intro fuel
  induction fuel with
  | zero =>
    intro st nodeId _
    exact forall₂_refl_of sameKeyX_refl st
  | succ fuel ih =>
    intro st nodeId hN
    simp only [calculateSubtreeDimensions]
    cases hget : getNode st nodeId with
    | none => exact forall₂_refl_of sameKeyX_refl st
    | some node =>
      simp only []
      by_cases hemp : (visible.filter (fun c => c.parentId == some nodeId)).isEmpty
      · simp only [hemp, if_true]
        exact forall₂_setNode_of_get sameKeyX_refl hN hget rfl ⟨⟨rfl, rfl, rfl⟩, rfl⟩
      · simp only [hemp, if_false]
        have hQ : idsNodup (dimsWalk (fun st2 cid => calculateSubtreeDimensions visible fuel st2 cid)
              (visible.filter (fun c => c.parentId == some nodeId)) (st, 0, 0)).1 ∧
            List.Forall₂ SameKeyX st (dimsWalk
              (fun st2 cid => calculateSubtreeDimensions visible fuel st2 cid)
              (visible.filter (fun c => c.parentId == some nodeId)) (st, 0, 0)).1 := by
          refine dimsWalk_pres
            (fun stA => idsNodup stA ∧ List.Forall₂ SameKeyX st stA) _ (st, 0, 0) ?_
            ⟨hN, forall₂_refl_of sameKeyX_refl st⟩
          intro stA c _ hA
          have hstep := ih stA c.id hA.1
          exact ⟨idsNodup_of_forall₂ (fun m m2 hr => hr.1.1) hstep hA.1,
            forall₂_trans_of sameKeyX_trans hA.2 hstep⟩
        cases hget2 : getNode (dimsWalk (fun st2 cid => calculateSubtreeDimensions visible fuel st2 cid)
            (visible.filter (fun c => c.parentId == some nodeId)) (st, 0, 0)).1 nodeId with
        | none => simpa [hget2] using hQ.2
        | some node2 =>
          simp only [hget2]
          exact forall₂_trans_of sameKeyX_trans hQ.2
            (forall₂_setNode_of_get sameKeyX_refl hQ.1 hget2 rfl ⟨⟨rfl, rfl, rfl⟩, rfl⟩)


theorem layoutInv_of_setNode (v : MindmapNode) {B : ℚ} {visible st : List MindmapNode}
    {node : MindmapNode} {nodeId : String}
    (hInv : LayoutInv B visible st) (hget : getNode st nodeId = some node)
    (hvid : v.id = node.id) (hvlev : v.level = node.level)
    (hvpar : v.parentId = node.parentId)
    (hvx : v.x = -1000 ∨ v.x = B + (v.level : ℚ) * LEVEL_OFFSET) :
    LayoutInv B visible (setNode st v) ∧ List.Forall₂ SameKey st (setNode st v) := by
  have hkey : List.Forall₂ SameKey st (setNode st v) :=
    forall₂_setNode_of_get sameKey_refl hInv.1 hget hvid ⟨hvid, hvlev, hvpar⟩
  refine ⟨⟨idsNodup_of_forall₂ (fun m m2 hr => hr.1) hkey hInv.1,
    levelAgree_of_forall₂ hkey hInv.2.1,
    parentLevel_of_forall₂ hkey hInv.2.2.1, ?_⟩, hkey⟩
  intro n hn
  rcases mem_setNode hn with h | rfl
  · exact hInv.2.2.2 n h
  · exact hvx

theorem positionSubtree_x (visible : List MindmapNode) (B : ℚ) :
    ∀ fuel st nodeId curX curY,
      LayoutInv B visible st →
      (∀ node, getNode st nodeId = some node →
        curX = B + (node.level : ℚ) * LEVEL_OFFSET) →
      LayoutInv B visible (positionSubtree visible fuel st nodeId curX curY).1 ∧
        List.Forall₂ SameKey st (positionSubtree visible fuel st nodeId curX curY).1 := by
  intro fuel
  induction fuel with
  | zero =>
    intro st nodeId curX curY hInv _
    exact ⟨hInv, forall₂_refl_of sameKey_refl st⟩
  | succ fuel ih =>
    intro st nodeId curX curY hInv hX
    simp only [positionSubtree]
    cases hget : getNode st nodeId with
    | none => exact ⟨hInv, forall₂_refl_of sameKey_refl st⟩
    | some node =>
      have hx : curX = B + (node.level : ℚ) * LEVEL_OFFSET := hX node hget
      have hset1 := layoutInv_of_setNode { node with x := curX } hInv hget rfl rfl rfl
        (Or.inr hx)
      have hget1 : getNode (setNode st { node with x := curX }) nodeId =
          some { node with x := curX } := getNode_setNode_self hget rfl
      cases hch : visible.filter (fun c => c.parentId == some nodeId) with
      | nil =>
        simp only []
        have hs2 := layoutInv_of_setNode { node with x := curX, y := curY + NODE_HEIGHT / 2 }
          hset1.1 hget1 rfl rfl rfl (Or.inr hx)
        exact ⟨hs2.1, forall₂_trans_of sameKey_trans hset1.2 hs2.2⟩
      | cons c0 rest =>
        simp only []
        set W := posWalk (fun st2 cid x y => positionSubtree visible fuel st2 cid x y) curX
          (c0 :: rest) (setNode st { node with x := curX }, curY) with hW
        have hQfold : LayoutInv B visible W.1 ∧
            List.Forall₂ SameKey (setNode st { node with x := curX }) W.1 := by
          rw [hW]
          refine posWalk_pres (fun stA => LayoutInv B visible stA ∧
              List.Forall₂ SameKey (setNode st { node with x := curX }) stA) (c0 :: rest) _ ?_
            ⟨hset1.1, forall₂_refl_of sameKey_refl _⟩
          intro stA y c hc hA
          have hcf : c ∈ visible ∧ (c.parentId == some nodeId) = true :=
            List.mem_filter.1 (hch ▸ hc)
          have hcp : c.parentId = some nodeId := by simpa using hcf.2
          have hXc : ∀ node2, getNode stA c.id = some node2 →
              curX + LEVEL_OFFSET = B + (node2.level : ℚ) * LEVEL_OFFSET := by
            intro node2 hn2
            have hlev2 : node2.level = c.level := hA.1.2.1 c hcf.1 node2 hn2
            rcases getNode_forall₂ (fun m m2 hr => hr.1) hA.2 nodeId with
              ⟨h1, _⟩ | ⟨p, p2, h1, h2, hr⟩
            · rw [hget1] at h1; cases h1
            · rw [hget1] at h1
              cases h1
              have hcl : c.level = p2.level + 1 := hA.1.2.2.1 c hcf.1 nodeId hcp p2 h2
              have hpl : p2.level = node.level := hr.2.1
              rw [hlev2, hcl, hpl, hx]
              push_cast
              ring
          have hstep := ih stA c.id (curX + LEVEL_OFFSET) y hA.1 hXc
          exact ⟨hstep.1, forall₂_trans_of sameKey_trans hA.2 hstep.2⟩
        have hQ2 : LayoutInv B visible W.1 ∧ List.Forall₂ SameKey st W.1 :=
          ⟨hQfold.1, forall₂_trans_of sameKey_trans hset1.2 hQfold.2⟩
        cases hget2 : getNode W.1 nodeId with
        | none => exact hQ2
        | some node2 =>
          have hx2 : node2.x = -1000 ∨ node2.x = B + (node2.level : ℚ) * LEVEL_OFFSET :=
            hQfold.1.2.2.2 node2 (getNode_some_id hget2).2
          have hfin : ∀ yv : ℚ,
              LayoutInv B visible (setNode W.1 { node2 with y := yv }) ∧
                List.Forall₂ SameKey st (setNode W.1 { node2 with y := yv }) := by
            intro yv
            have hs := layoutInv_of_setNode { node2 with y := yv } hQfold.1 hget2 rfl rfl rfl hx2
            exact ⟨hs.1, forall₂_trans_of sameKey_trans hQ2.2 hs.2⟩
          cases hfc : getNode W.1 c0.id with
          | none => exact hfin (curY + node2.subtreeHeight / 2)
          | some fc =>
            cases hlc : getNode W.1 (((c0 :: rest).getLast?).getD c0).id with
            | none => exact hfin (curY + node2.subtreeHeight / 2)
            | some lc => exact hfin ((fc.y + lc.y) / 2)

theorem mem_flattenChildren {pidS : String} {lvl : Nat} :
    ∀ {i : Nat} {cs : List EtymologyTree} {n : MindmapNode},
      n ∈ flattenChildren pidS lvl i cs →
      ∃ c ∈ cs, ∃ j, n ∈ flattenTree c (some pidS) lvl j ∧
        ∀ m ∈ flattenTree c (some pidS) lvl j, m ∈ flattenChildren pidS lvl i cs := by
  intro i cs
  induction cs generalizing i with
  | nil => intro n hn; simp [flattenChildren] at hn
  | cons c cs ih =>
    intro n hn
    simp only [flattenChildren] at hn
    rcases List.mem_append.1 hn with h | h
    · by_cases hg : (optTruthy c.word && optTruthy c.language) = true
      · rw [if_pos hg] at h
        refine ⟨c, List.mem_cons_self _ _, i, h, fun m hm => ?_⟩
        simp only [flattenChildren]
        exact List.mem_append.2 (Or.inl (by rw [if_pos hg]; exact hm))
      · rw [if_neg hg] at h; cases h
    · rcases ih h with ⟨c2, hc2, j, hj, hincl⟩
      refine ⟨c2, List.mem_cons_of_mem _ hc2, j, hj, fun m hm => ?_⟩
      simp only [flattenChildren]
      exact List.mem_append.2 (Or.inr (hincl m hm))

theorem flatten_shape : ∀ (t : EtymologyTree) (pid : Option String) (lvl idx : Nat)
    (n : MindmapNode), n ∈ flattenTree t pid lvl idx →
    ((n.parentId = pid ∧ n.level = lvl) ∨
      ∃ q ∈ flattenTree t pid lvl idx, n.parentId = some q.id ∧ n.level = q.level + 1) ∧
    ∃ w2 l2 d2 i2, n.id = mkId w2 l2 d2 i2 := by
  intro t
  induction t using EtymologyTree.inductionOn with
  | _ w l m cs IH =>
    intro pid lvl idx n hn
    simp only [flattenTree] at hn
    by_cases hg : (optTruthy w && optTruthy l) = true
    · rw [if_pos hg] at hn
      simp only [flattenTree]
      rw [if_pos hg]
      rcases List.mem_cons.1 hn with rfl | hmem
      · exact ⟨Or.inl ⟨rfl, rfl⟩, w.getD "", l.getD "", lvl, idx, rfl⟩
      · rcases mem_flattenChildren hmem with ⟨c, hc, j, hj, hincl⟩
        have hres := IH c hc (some (mkId (w.getD "") (l.getD "") lvl idx)) (lvl + 1) j n hj
        refine ⟨?_, hres.2⟩
        rcases hres.1 with ⟨hp, hl⟩ | ⟨q, hq, hqp, hql⟩
        · exact Or.inr ⟨_, List.mem_cons_self _ _, hp, hl⟩
        · exact Or.inr ⟨q, List.mem_cons.2 (Or.inr (hincl q hq)), hqp, hql⟩
    · rw [if_neg hg] at hn; cases hn

theorem mkId_ne_empty (w l : String) (d i : Nat) : mkId w l d i ≠ "" := by
  intro h
  have hd := congrArg String.data h
  simp [mkId, String.data_append] at hd

theorem getNode_map_of_id {fr : MindmapNode → MindmapNode} (hfr : ∀ n, (fr n).id = n.id)
    (flat : List MindmapNode) (i : String) :
    getNode (flat.map fr) i = (getNode flat i).map fr := by
  induction flat with
  | nil => rfl
  | cons a as ih =>
    rw [List.map_cons, getNode_cons, getNode_cons]
    by_cases ha : (a.id == i) = true
    · have : ((fr a).id == i) = true := by rw [hfr]; exact ha
      rw [if_pos this, if_pos ha]
      rfl
    · have : ¬((fr a).id == i) = true := by rw [hfr]; exact ha
      rw [if_neg this, if_neg ha, ih]

theorem getNode_append (a b : List MindmapNode) (i : String) :
    getNode (a ++ b) i = ((getNode a i).orElse fun _ => getNode b i) := by
  induction a with
  | nil => rfl
  | cons x xs ih =>
    rw [List.cons_append, getNode_cons, getNode_cons]
    by_cases hx : (x.id == i) = true
    · rw [if_pos hx, if_pos hx]; rfl
    · rw [if_neg hx, if_neg hx, ih]

theorem mkNodesMap_eq_of_nodup {flat : List MindmapNode} (h : idsNodup flat) :
    mkNodesMap flat = flat.map (fun n => { n with x := -1000, y := -1000 }) := by
  have aux : ∀ (l st : List MindmapNode), (∀ n ∈ l, getNode st n.id = none) → idsNodup l →
      l.foldl (fun st n =>
        let fresh := { n with x := -1000, y := -1000 }
        if (getNode st fresh.id).isSome then setNode st fresh else st ++ [fresh]) st =
      st ++ l.map (fun n => { n with x := -1000, y := -1000 }) := by
    intro l
    induction l with
    | nil => intro st _ _; simp
    | cons n l ih =>
      intro st hnone hN
      simp only [List.foldl_cons]
      have h0 : getNode st n.id = none := hnone n (List.mem_cons_self _ _)
      have hcond : (getNode st ({ n with x := -1000, y := -1000 } : MindmapNode).id).isSome =
          false := by
        rw [show ({ n with x := -1000, y := -1000 } : MindmapNode).id = n.id from rfl, h0]
        rfl
      simp only [hcond, Bool.false_eq_true, if_false]
      have hstep : ∀ m ∈ l, getNode (st ++ [{ n with x := -1000, y := -1000 }]) m.id = none := by
        intro m hm
        rw [getNode_append, hnone m (List.mem_cons_of_mem _ hm)]
        have hne : ¬(n.id == m.id) = true := by
          unfold idsNodup at hN
          simp only [List.map_cons, List.nodup_cons] at hN
          intro hc
          have hc2 : n.id = m.id := by simpa using hc
          exact hN.1 (List.mem_map.2 ⟨m, hm, hc2.symm⟩)
        simp only [Option.orElse]
        rw [getNode_cons]
        have hne2 : ¬(({ n with x := -1000, y := -1000 } : MindmapNode).id == m.id) = true := hne
        rw [if_neg hne2]
        rfl
      have hN2 : idsNodup l := by
        unfold idsNodup at hN ⊢
        simp only [List.map_cons, List.nodup_cons] at hN
        exact hN.2
      rw [ih _ hstep hN2]
      simp
  unfold mkNodesMap
  rw [aux flat [] (fun n _ => rfl) h]
  simp

theorem xinv_shift {B oX : ℚ} {st : List MindmapNode} (hX : XInv B st)
    (hB : (-1000 : ℚ) < B) :
    ∀ n ∈ st.map (fun m => if (-1000 : ℚ) < m.x then { m with x := m.x + oX } else m),
      n.x ≠ -1000 → n.x = (B + oX) + (n.level : ℚ) * LEVEL_OFFSET := by
  intro n hn hne
  rcases List.mem_map.1 hn with ⟨a, ha, rfl⟩
  rcases hX a ha with h | h
  · have hcond : ¬((-1000 : ℚ) < a.x) := by rw [h]; exact lt_irrefl _
    rw [if_neg hcond] at hne
    exact absurd h hne
  · have hlev : (0 : ℚ) ≤ (a.level : ℚ) * LEVEL_OFFSET := by
      have h1 : (0 : ℚ) ≤ (a.level : ℚ) := Nat.cast_nonneg _
      have h2 : (0 : ℚ) ≤ LEVEL_OFFSET := by norm_num [LEVEL_OFFSET]
      exact mul_nonneg h1 h2
    have hpos : (-1000 : ℚ) < a.x := by rw [h]; linarith
    rw [if_pos hpos]
    show a.x + oX = B + oX + (a.level : ℚ) * LEVEL_OFFSET
    rw [h]; ring

theorem flatten_layoutInv (t : EtymologyTree)
    (hN : idsNodup (flattenTree t none 0 0)) (visible : List MindmapNode)
    (hvis : ∀ c ∈ visible, c ∈ flattenTree t none 0 0) :
    LayoutInv (NODE_WIDTH / 2) visible (mkNodesMap (flattenTree t none 0 0)) := by
  have hmap := mkNodesMap_eq_of_nodup hN
  have hfr : ∀ n : MindmapNode, (({ n with x := -1000, y := -1000 } : MindmapNode)).id = n.id :=
    fun n => rfl
  have hget0 : ∀ i, getNode (mkNodesMap (flattenTree t none 0 0)) i =
      (getNode (flattenTree t none 0 0) i).map
        (fun n => { n with x := -1000, y := -1000 }) := by
    intro i
    rw [hmap]
    exact getNode_map_of_id hfr _ i
  refine ⟨?_, ?_, ?_, ?_⟩
  · unfold idsNodup at hN ⊢
    rw [hmap, List.map_map]
    exact hN
  · intro c hc n hn
    rw [hget0, getNode_eq_of_mem hN (hvis c hc)] at hn
    cases hn
    rfl
  · intro c hc pid hpid p hp
    rw [hget0] at hp
    cases hq : getNode (flattenTree t none 0 0) pid with
    | none => rw [hq] at hp; cases hp
    | some q =>
      rw [hq] at hp
      cases hp
      have hqm := getNode_some_id hq
      rcases (flatten_shape t none 0 0 c (hvis c hc)).1 with ⟨hcp, _⟩ | ⟨q2, hq2, hq2p, hq2l⟩
      · rw [hcp] at hpid; cases hpid
      · rw [hq2p] at hpid
        have hq2id : q2.id = q.id := by rw [hqm.1]; exact Option.some_injective _ hpid
        have hq2q : q2 = q := idsNodup_unique hN hq2 hqm.2 hq2id
        rw [hq2l, hq2q]
  · intro n hn
    rw [hmap] at hn
    rcases List.mem_map.1 hn with ⟨a, _, rfl⟩
    exact Or.inl rfl

theorem flatten_root_level (t : EtymologyTree) {r : MindmapNode}
    (hr : r ∈ flattenTree t none 0 0) (hpred : (!optTruthy r.parentId) = true) :
    r.level = 0 := by
  rcases (flatten_shape t none 0 0 r hr).1 with ⟨_, hl⟩ | ⟨q, hq, hqp, _⟩
  · exact hl
  · exfalso
    rcases (flatten_shape t none 0 0 q hq).2 with ⟨w2, l2, d2, i2, hid⟩
    rw [hqp, hid] at hpred
    simp only [optTruthy] at hpred
    rw [Bool.not_eq_eq_eq_not] at hpred
    simp only [Bool.not_true] at hpred
    have hemp : mkId w2 l2 d2 i2 = "" := by simpa using hpred
    exact mkId_ne_empty w2 l2 d2 i2 hemp

theorem layout_columns (t : EtymologyTree) (W H : ℚ)
    (hN : idsNodup (flattenTree t none 0 0)) :
    ∃ B : ℚ, ∀ n ∈ calculateLayout (flattenTree t none 0 0) W H,
      n.x ≠ -1000 → n.x = B + (n.level : ℚ) * LEVEL_OFFSET := by
  simp only [calculateLayout]
  by_cases hemp : (flattenTree t none 0 0).isEmpty = true
  · rw [if_pos hemp]
    exact ⟨0, fun n hn => absurd hn (List.not_mem_nil n)⟩
  · rw [if_neg hemp]
    cases hfind : List.find? (fun n => !optTruthy n.parentId)
        (List.filter
          (fun n => visibleWalk (mkNodesMap (flattenTree t none 0 0))
            ((mkNodesMap (flattenTree t none 0 0)).length + 1) n)
          (flattenTree t none 0 0)) with
    | none =>
      refine ⟨0, fun n hn hne => ?_⟩
      exfalso
      rw [mkNodesMap_eq_of_nodup hN] at hn
      rcases List.mem_map.1 hn with ⟨a, _, rfl⟩
      exact hne rfl
    | some r =>
      have hrm0 := List.find?_some hfind
      have hrm : (!optTruthy r.parentId) = true := hrm0
      have hrv := List.mem_of_find?_eq_some hfind
      have hrf : r ∈ flattenTree t none 0 0 := List.mem_of_mem_filter hrv
      have hInv0 := flatten_layoutInv t hN
        (List.filter
          (fun n => visibleWalk (mkNodesMap (flattenTree t none 0 0))
            ((mkNodesMap (flattenTree t none 0 0)).length + 1) n)
          (flattenTree t none 0 0))
        (fun c hc => List.mem_of_mem_filter hc)
      have hkeysX := calcDims_keysX
        (List.filter
          (fun n => visibleWalk (mkNodesMap (flattenTree t none 0 0))
            ((mkNodesMap (flattenTree t none 0 0)).length + 1) n)
          (flattenTree t none 0 0))
        ((mkNodesMap (flattenTree t none 0 0)).length + 1)
        (mkNodesMap (flattenTree t none 0 0)) r.id hInv0.1
      have hkeys := hkeysX.imp (fun a b hab => hab.1)
      have hInv1 : LayoutInv (NODE_WIDTH / 2)
          (List.filter
            (fun n => visibleWalk (mkNodesMap (flattenTree t none 0 0))
              ((mkNodesMap (flattenTree t none 0 0)).length + 1) n)
            (flattenTree t none 0 0))
          (calculateSubtreeDimensions
            (List.filter
              (fun n => visibleWalk (mkNodesMap (flattenTree t none 0 0))
                ((mkNodesMap (flattenTree t none 0 0)).length + 1) n)
              (flattenTree t none 0 0))
            ((mkNodesMap (flattenTree t none 0 0)).length + 1)
            (mkNodesMap (flattenTree t none 0 0)) r.id).1 :=
        ⟨idsNodup_of_forall₂ (fun m m2 hr => hr.1) hkeys hInv0.1,
          levelAgree_of_forall₂ hkeys hInv0.2.1,
          parentLevel_of_forall₂ hkeys hInv0.2.2.1,
          xinv_of_forall₂X hkeysX hInv0.2.2.2⟩
      have hrlev : r.level = 0 := flatten_root_level t hrf hrm
      have hX1 : ∀ node, getNode (calculateSubtreeDimensions
            (List.filter
              (fun n => visibleWalk (mkNodesMap (flattenTree t none 0 0))
                ((mkNodesMap (flattenTree t none 0 0)).length + 1) n)
              (flattenTree t none 0 0))
            ((mkNodesMap (flattenTree t none 0 0)).length + 1)
            (mkNodesMap (flattenTree t none 0 0)) r.id).1 r.id = some node →
          NODE_WIDTH / 2 = NODE_WIDTH / 2 + (node.level : ℚ) * LEVEL_OFFSET := by
        intro node hnode
        have hlev : node.level = r.level := hInv1.2.1 r hrv node hnode
        rw [hlev, hrlev]
        push_cast
        ring
      have hpos := positionSubtree_x
        (List.filter
          (fun n => visibleWalk (mkNodesMap (flattenTree t none 0 0))
            ((mkNodesMap (flattenTree t none 0 0)).length + 1) n)
          (flattenTree t none 0 0))
        (NODE_WIDTH / 2)
        ((mkNodesMap (flattenTree t none 0 0)).length + 1)
        (calculateSubtreeDimensions
          (List.filter
            (fun n => visibleWalk (mkNodesMap (flattenTree t none 0 0))
              ((mkNodesMap (flattenTree t none 0 0)).length + 1) n)
            (flattenTree t none 0 0))
          ((mkNodesMap (flattenTree t none 0 0)).length + 1)
          (mkNodesMap (flattenTree t none 0 0)) r.id).1
        r.id (NODE_WIDTH / 2) (H / 2 - r.subtreeHeight / 2) hInv1 hX1
      cases hbox : List.filter (fun n => decide ((-1000 : ℚ) < n.x))
          (List.filter
            (fun n => visibleWalk (mkNodesMap (flattenTree t none 0 0))
              ((mkNodesMap (flattenTree t none 0 0)).length + 1) n)
            (flattenTree t none 0 0)) with
      | nil =>
        exact ⟨NODE_WIDTH / 2, fun n hn hne => (hpos.1.2.2.2 n hn).resolve_left hne⟩
      | cons b bs =>
        have hB : (-1000 : ℚ) < NODE_WIDTH / 2 := by norm_num [NODE_WIDTH]
        exact ⟨_, xinv_shift hpos.1.2.2.2 hB⟩

end TreeDiagram

theorem digitChar_facts : ∀ k < 10, Nat.digitChar k ≠ '-' ∧ digitVal (Nat.digitChar k) = k := by
  decide

theorem decDigits_lt {n : Nat} (h : n < 10) : decDigits n = [Nat.digitChar n] := by
  rw [decDigits]
  simp [h]

theorem decDigits_ge {n : Nat} (h : ¬n < 10) :
    decDigits n = decDigits (n / 10) ++ [Nat.digitChar (n % 10)] := by
  rw [decDigits]
  simp [h]

theorem toDigitsCore_eq_decDigits :
    ∀ (f n : Nat) (l : List Char), n < f → Nat.toDigitsCore 10 f n l = decDigits n ++ l := by
  intro f
  induction f with
  | zero => intro n l h; omega
  | succ f ih =>
    intro n l h
    rw [Nat.toDigitsCore]
    by_cases h10 : n / 10 = 0
    · have hn : n < 10 := by
        rcases Nat.div_eq_zero_iff (by omega) |>.1 h10 with h2
        exact h2
      simp only [h10, if_pos]
      rw [decDigits_lt hn, Nat.mod_eq_of_lt hn]
      rfl
    · have hge : ¬n < 10 := fun hc => h10 (Nat.div_eq_of_lt hc)
      have hlt : n / 10 < f := by
        have := Nat.div_lt_self (by omega : 0 < n) (by omega : 1 < 10)
        omega
      simp only [h10, if_false]
      rw [ih (n / 10) _ hlt, decDigits_ge hge, List.append_assoc]
      rfl

theorem repr_data (n : Nat) : (Nat.repr n).data = decDigits n := by
  unfold Nat.repr Nat.toDigits
  rw [toDigitsCore_eq_decDigits (n + 1) n [] (Nat.lt_succ_self n)]
  simp [List.asString]

theorem decDigits_all_digits (n : Nat) : ∀ c ∈ decDigits n, ∃ k, k < 10 ∧ c = Nat.digitChar k := by
  induction n using Nat.strong_induction_on with
  | _ n ih =>
    intro c hc
    by_cases h : n < 10
    · rw [decDigits_lt h] at hc
      rcases List.mem_singleton.1 hc with rfl
      exact ⟨n, h, rfl⟩
    · rw [decDigits_ge h] at hc
      rcases List.mem_append.1 hc with h2 | h2
      · exact ih (n / 10) (Nat.div_lt_self (by omega) (by omega)) c h2
      · rcases List.mem_singleton.1 h2 with rfl
        exact ⟨n % 10, Nat.mod_lt _ (by omega), rfl⟩

theorem repr_no_hyphen (n : Nat) : ¬('-' ∈ (Nat.repr n).data) := by
  rw [repr_data]
  intro hc
  rcases decDigits_all_digits n _ hc with ⟨k, hk, hck⟩
  exact (digitChar_facts k hk).1 hck.symm

theorem evalDigits_decDigits (n : Nat) : evalDigits (decDigits n) = n := by
  induction n using Nat.strong_induction_on with
  | _ n ih =>
    by_cases h : n < 10
    · rw [decDigits_lt h]
      show 10 * 0 + digitVal (Nat.digitChar n) = n
      rw [(digitChar_facts n h).2]
      omega
    · rw [decDigits_ge h]
      unfold evalDigits
      rw [List.foldl_append]
      have hrec := ih (n / 10) (Nat.div_lt_self (by omega) (by omega))
      unfold evalDigits at hrec
      rw [hrec]
      show 10 * (n / 10) + digitVal (Nat.digitChar (n % 10)) = n
      rw [(digitChar_facts (n % 10) (Nat.mod_lt _ (by omega))).2]
      omega

theorem repr_inj {m n : Nat} (h : Nat.repr m = Nat.repr n) : m = n := by
  have hd : decDigits m = decDigits n := by
    rw [← repr_data, ← repr_data, h]
  rw [← evalDigits_decDigits m, ← evalDigits_decDigits n, hd]

theorem sep_split : ∀ (a c b d : List Char), ¬('-' ∈ a) → ¬('-' ∈ c) →
    a ++ '-' :: b = c ++ '-' :: d → a = c ∧ b = d := by
  intro a
  induction a with
  | nil =>
    intro c b d _ hc h
    cases c with
    | nil => simpa using h
    | cons x xs =>
      simp only [List.nil_append, List.cons_append, List.cons.injEq] at h
      exfalso
      exact hc (h.1 ▸ List.mem_cons_self _ _)
  | cons x xs ih =>
    intro c b d ha hc h
    cases c with
    | nil =>
      simp only [List.cons_append, List.nil_append, List.cons.injEq] at h
      exfalso
      exact ha (h.1.symm ▸ List.mem_cons_self _ _)
    | cons y ys =>
      simp only [List.cons_append, List.cons.injEq] at h
      have hxs : ¬('-' ∈ xs) := fun hm => ha (List.mem_cons_of_mem _ hm)
      have hys : ¬('-' ∈ ys) := fun hm => hc (List.mem_cons_of_mem _ hm)
      rcases ih ys b d hxs hys h.2 with ⟨h1, h2⟩
      exact ⟨by rw [h.1, h1], h2⟩

theorem mkId_data (w l : String) (d i : Nat) :
    (mkId w l d i).data =
      w.data ++ '-' :: (l.data ++ '-' :: ((Nat.repr d).data ++ '-' :: (Nat.repr i).data)) := by
  simp [mkId, String.data_append]

theorem mkId_inj {w1 l1 w2 l2 : String} {d1 i1 d2 i2 : Nat}
    (hw1 : ¬('-' ∈ w1.data)) (hl1 : ¬('-' ∈ l1.data))
    (hw2 : ¬('-' ∈ w2.data)) (hl2 : ¬('-' ∈ l2.data))
    (h : mkId w1 l1 d1 i1 = mkId w2 l2 d2 i2) :
    w1 = w2 ∧ l1 = l2 ∧ d1 = d2 ∧ i1 = i2 := by
  have hd := congrArg String.data h
  rw [mkId_data, mkId_data] at hd
  rcases sep_split _ _ _ _ hw1 hw2 hd with ⟨hw, hrest⟩
  rcases sep_split _ _ _ _ hl1 hl2 hrest with ⟨hl, hrest2⟩
  rcases sep_split _ _ _ _ (repr_no_hyphen d1) (repr_no_hyphen d2) hrest2 with ⟨hdd, hii⟩
  refine ⟨String.ext hw, String.ext hl, repr_inj (String.ext hdd), repr_inj (String.ext hii)⟩

namespace TreeDiagram

theorem flatten_ids_eq : ∀ (t : EtymologyTree) (pid : Option String) (lvl idx : Nat),
    (flattenTree t pid lvl idx).map (fun n => n.id) =
      (quads t lvl idx).map (fun q => mkId q.1 q.2.1 q.2.2.1 q.2.2.2) := by
  intro t
  induction t using EtymologyTree.inductionOn with
  | _ w l m cs IH =>
    intro pid lvl idx
    simp only [flattenTree, quads]
    by_cases hg : (optTruthy w && optTruthy l) = true
    · rw [if_pos hg, if_pos hg]
      simp only [List.map_cons]
      congr 1
      have walker : ∀ (cs2 : List EtymologyTree), (∀ c ∈ cs2, c ∈ cs) → ∀ (i : Nat),
          (flattenChildren (mkId (w.getD "") (l.getD "") lvl idx) (lvl + 1) i cs2).map
              (fun n => n.id) =
            (quadsChildren (lvl + 1) i cs2).map (fun q => mkId q.1 q.2.1 q.2.2.1 q.2.2.2) := by
        intro cs2
        induction cs2 with
        | nil => intro _ _; rfl
        | cons c cs2 ihc =>
          intro hsub i
          simp only [flattenChildren, quadsChildren, List.map_append]
          rw [ihc (fun c2 h2 => hsub c2 (List.mem_cons_of_mem _ h2)) (i + 1)]
          congr 1
          by_cases hgc : (optTruthy c.word && optTruthy c.language) = true
          · rw [if_pos hgc, if_pos hgc]
            exact IH c (hsub c (List.mem_cons_self _ _)) _ (lvl + 1) i
          · rw [if_neg hgc, if_neg hgc]; rfl
      exact walker cs (fun _ h => h) 0
    · rw [if_neg hg, if_neg hg]; rfl

end TreeDiagram

/-- C1 (counterexample): the id-uniqueness claim fails as stated.  In
`exCousins` two distinct nodes — children of different parents — share the
same word, language, depth, and per-parent sibling index, so `flattenTree`
gives both the id `a-b-2-0` and the produced id list is *not* pairwise
distinct. -/
theorem c1_id_uniqueness_counterexample :
    ¬((TreeDiagram.flattenTree exCousins none 0 0).map (fun n => n.id)).Nodup := by
  decide

/-- C1 (amended): the normalized node list produced by `flattenTree` has
pairwise-distinct ids (each id being `{word}-{language}-{depth}-{siblingIndex}`)
provided that no kept node's word or language contains a hyphen and that the
`(word, language, depth, siblingIndex)` quadruples of the kept nodes are
pairwise distinct.  Without those provisos duplicate ids can occur (see the
counterexample): the sibling index is only unique per parent, so two cousins
sharing word, language and depth collide. -/
theorem c1_id_uniqueness_amended (t : EtymologyTree)
    (hhy : ∀ q ∈ TreeDiagram.quads t 0 0, ¬('-' ∈ q.1.data) ∧ ¬('-' ∈ q.2.1.data))
    (hN : (TreeDiagram.quads t 0 0).Nodup) :
    ((TreeDiagram.flattenTree t none 0 0).map (fun n => n.id)).Nodup := by
  rw [TreeDiagram.flatten_ids_eq]
  refine List.Nodup.map_on ?_ hN
  intro q1 h1 q2 h2 heq
  rcases mkId_inj (hhy q1 h1).1 (hhy q1 h1).2 (hhy q2 h2).1 (hhy q2 h2).2 heq with
    ⟨e1, e2, e3, e4⟩
  rcases q1 with ⟨a1, b1, c1, d1⟩
  rcases q2 with ⟨a2, b2, c2, d2⟩
  simp_all

/-- C1 (witness): the amended theorem applied to the concrete three-level
chain `exChain3`, whose quadruples are distinct and hyphen-free; its ids come
out pairwise distinct. -/
theorem c1_id_uniqueness_witness :
    ((∀ q ∈ TreeDiagram.quads exChain3 0 0, ¬('-' ∈ q.1.data) ∧ ¬('-' ∈ q.2.1.data)) ∧
      (TreeDiagram.quads exChain3 0 0).Nodup) ∧
    ((TreeDiagram.flattenTree exChain3 none 0 0).map (fun n => n.id)).Nodup :=
  ⟨⟨by decide, by decide⟩, c1_id_uniqueness_amended exChain3 (by decide) (by decide)⟩

theorem optTruthy_getD {o : Option String} (h : optTruthy o = true) : o.getD "" ≠ "" := by
  cases o with
  | none => simp [optTruthy] at h
  | some s =>
    simp only [optTruthy] at h
    simpa using h

namespace TreeDiagram

theorem flatten_words_valid : ∀ (t : EtymologyTree) (pid : Option String) (lvl idx : Nat),
    ∀ n ∈ flattenTree t pid lvl idx, n.word ≠ "" ∧ n.language ≠ "" := by
  intro t
  induction t using EtymologyTree.inductionOn with
  | _ w l m cs IH =>
    intro pid lvl idx n hn
    simp only [flattenTree] at hn
    by_cases hg : (optTruthy w && optTruthy l) = true
    · rw [if_pos hg] at hn
      have hg2 : optTruthy w = true ∧ optTruthy l = true := by
        rw [Bool.and_eq_true] at hg; exact hg
      have hw : optTruthy w = true := hg2.1
      have hl : optTruthy l = true := hg2.2
      rcases List.mem_cons.1 hn with rfl | hmem
      · exact ⟨optTruthy_getD hw, optTruthy_getD hl⟩
      · rcases mem_flattenChildren hmem with ⟨c, hc, j, hj, _⟩
        exact IH c hc _ (lvl + 1) j n hj
    · rw [if_neg hg] at hn; cases hn

theorem childIds_congr (lvl : Nat) (bad bad2 : EtymologyTree)
    (hb : ¬(optTruthy bad.word && optTruthy bad.language) = true)
    (hb2 : ¬(optTruthy bad2.word && optTruthy bad2.language) = true) :
    ∀ (pre : List EtymologyTree) (post : List EtymologyTree) (i : Nat),
      childIds lvl i (pre ++ bad :: post) = childIds lvl i (pre ++ bad2 :: post) := by
  intro pre
  induction pre with
  | nil =>
    intro post i
    simp only [List.nil_append, childIds, if_neg hb, if_neg hb2]
  | cons p pre ih =>
    intro post i
    simp only [List.cons_append, childIds, List.append_eq]
    rw [ih post (i + 1)]

theorem flattenChildren_congr (pidS : String) (lvl : Nat) (bad bad2 : EtymologyTree)
    (hb : ¬(optTruthy bad.word && optTruthy bad.language) = true)
    (hb2 : ¬(optTruthy bad2.word && optTruthy bad2.language) = true) :
    ∀ (pre : List EtymologyTree) (post : List EtymologyTree) (i : Nat),
      flattenChildren pidS lvl i (pre ++ bad :: post) =
        flattenChildren pidS lvl i (pre ++ bad2 :: post) := by
  intro pre
  induction pre with
  | nil =>
    intro post i
    simp only [List.nil_append, flattenChildren, if_neg hb, if_neg hb2]
  | cons p pre ih =>
    intro post i
    simp only [List.cons_append, flattenChildren, List.append_eq]
    rw [ih post (i + 1)]

theorem flatten_drops_invalid_subtree (w l m : Option String)
    (pre post : List EtymologyTree) (bad bad2 : EtymologyTree)
    (pid : Option String) (lvl idx : Nat)
    (hb : ¬(optTruthy bad.word && optTruthy bad.language) = true)
    (hb2 : ¬(optTruthy bad2.word && optTruthy bad2.language) = true) :
    flattenTree (.mk w l m (pre ++ bad :: post)) pid lvl idx =
      flattenTree (.mk w l m (pre ++ bad2 :: post)) pid lvl idx := by
  simp only [flattenTree]
  by_cases hg : (optTruthy w && optTruthy l) = true
  · rw [if_pos hg, if_pos hg]
    rw [childIds_congr (lvl + 1) bad bad2 hb hb2 pre post 0]
    rw [flattenChildren_congr (mkId (w.getD "") (l.getD "") lvl idx) (lvl + 1) bad bad2 hb hb2
      pre post 0]
  · rw [if_neg hg, if_neg hg]

end TreeDiagram

theorem fdg_skips_missing (t : EtymologyTree) (pid : Option String) (lvl idx : Nat)
    (h : t.word = none ∨ t.language = none) :
    ForceDirectedGraph.flattenTree t pid lvl idx = [] := by
  cases t with
  | mk w l m cs =>
    simp only [EtymologyTree.word, EtymologyTree.language] at h
    simp only [ForceDirectedGraph.flattenTree]
    rcases h with rfl | rfl
    · simp [ForceDirectedGraph.isStringVal]
    · simp [ForceDirectedGraph.isStringVal]

/-- C2 (counterexample): the claim fails as stated for the
`ForceDirectedGraph` flattener it cites: a root whose `word` is present but
*empty* is not excluded — its `typeof`-based guard only skips missing
(non-string) fields, so the node with `word = ""` is kept. -/
theorem c2_validity_filtering_counterexample :
    ForceDirectedGraph.flattenTree exEmptyWord none 0 0 ≠ [] ∧
      (ForceDirectedGraph.flattenTree exEmptyWord none 0 0).map (fun n => n.word) = [""] := by
  constructor
  · decide
  · decide

/-- C2 (amended): for the `TreeDiagram` (and structurally identical
`FlowchartDiagram`) flattener the claim holds: every emitted node has a
non-empty word and language (so a node with an empty or missing word or
language is excluded), and replacing an invalid child's entire subtree by any
other invalid subtree leaves the output unchanged — the invalid node's whole
subtree is dropped while the sibling subtrees (with their positional
indices) are preserved, and nothing is thrown.  The `ForceDirectedGraph`
flattener, by contrast, only excludes nodes whose word or language is
*missing*; nodes with empty-string word or language are kept (see the
counterexample). -/
theorem c2_validity_filtering_amended :
    (∀ (t : EtymologyTree) (pid : Option String) (lvl idx : Nat),
      ∀ n ∈ TreeDiagram.flattenTree t pid lvl idx, n.word ≠ "" ∧ n.language ≠ "") ∧
    (∀ (w l m : Option String) (pre post : List EtymologyTree) (bad bad2 : EtymologyTree)
      (pid : Option String) (lvl idx : Nat),
      ¬(optTruthy bad.word && optTruthy bad.language) = true →
      ¬(optTruthy bad2.word && optTruthy bad2.language) = true →
      TreeDiagram.flattenTree (.mk w l m (pre ++ bad :: post)) pid lvl idx =
        TreeDiagram.flattenTree (.mk w l m (pre ++ bad2 :: post)) pid lvl idx) ∧
    (∀ (t : EtymologyTree) (pid : Option String) (lvl idx : Nat),
      t.word = none ∨ t.language = none →
      ForceDirectedGraph.flattenTree t pid lvl idx = []) :=
  ⟨TreeDiagram.flatten_words_valid,
    fun w l m pre post bad bad2 pid lvl idx hb hb2 =>
      TreeDiagram.flatten_drops_invalid_subtree w l m pre post bad bad2 pid lvl idx hb hb2,
    fdg_skips_missing⟩

/-- C2 (witness): the amended theorem at concrete inputs — the single valid
node of `exSingle` is emitted with non-empty word and language; in
`exDropTree` the empty-word middle child's entire subtree (with its valid
grandchild) is dropped, leaving the same output as if that subtree were
empty; and the `ForceDirectedGraph` flattener drops a root with a missing
word. -/
theorem c2_validity_filtering_witness :
    (exNode ∈ TreeDiagram.flattenTree exSingle none 0 0 ∧
      (exNode.word ≠ "" ∧ exNode.language ≠ "")) ∧
    (TreeDiagram.flattenTree exDropTree none 0 0 =
      TreeDiagram.flattenTree
        (EtymologyTree.mk (some "root") (some "English") none
          [EtymologyTree.mk (some "left") (some "Latin") none [],
           EtymologyTree.mk (some "") (some "Greek") none [],
           EtymologyTree.mk (some "right") (some "Latin") none []]) none 0 0) ∧
    ForceDirectedGraph.flattenTree (EtymologyTree.mk none (some "Latin") none []) none 0 0 = [] :=
  ⟨⟨by decide, c2_validity_filtering_amended.1 exSingle none 0 0 exNode (by decide)⟩,
    c2_validity_filtering_amended.2.1 (some "root") (some "English") none
      [EtymologyTree.mk (some "left") (some "Latin") none []]
      [EtymologyTree.mk (some "right") (some "Latin") none []]
      (EtymologyTree.mk (some "") (some "Greek") none
        [EtymologyTree.mk (some "lost") (some "Greek") none []])
      (EtymologyTree.mk (some "") (some "Greek") none []) none 0 0 (by decide) (by decide),
    c2_validity_filtering_amended.2.2 (EtymologyTree.mk none (some "Latin") none []) none 0 0
      (Or.inl rfl)⟩

/-- C4 (counterexample): the claim fails as stated.  Laying out the
two-level chain `exChain2` in an 800 times 600 viewport puts the depth-0 node at
`x = 510` and the depth-1 node at `x = 810`: the column offset is `300`
(the `LEVEL_OFFSET` constant), not `NODE_WIDTH + HORIZONTAL_SPACING = 340`
(nor `NODE_WIDTH + LEVEL_OFFSET = 520`). -/
theorem c4_column_offset_counterexample :
    (TreeDiagram.calculateLayout (TreeDiagram.flattenTree exChain2 none 0 0) 800 600).map
        (fun n => ((n.level : ℚ), n.x)) = [(0, 510), (1, 810)] ∧
      (810 : ℚ) - 510 = TreeDiagram.LEVEL_OFFSET ∧
      (810 : ℚ) - 510 ≠ TreeDiagram.NODE_WIDTH + TreeDiagram.HORIZONTAL_SPACING ∧
      (810 : ℚ) - 510 ≠ TreeDiagram.NODE_WIDTH + TreeDiagram.LEVEL_OFFSET := by
  refine ⟨?_, by norm_num [TreeDiagram.LEVEL_OFFSET],
    by norm_num [TreeDiagram.NODE_WIDTH, TreeDiagram.HORIZONTAL_SPACING],
    by norm_num [TreeDiagram.NODE_WIDTH, TreeDiagram.LEVEL_OFFSET]⟩
  have h1 : TreeDiagram.flattenTree exChain2 none 0 0 = [exRoot2, exChild2] := by decide
  have h2 : mkNodesMap [exRoot2, exChild2] =
      [{ exRoot2 with x := -1000, y := -1000 }, { exChild2 with x := -1000, y := -1000 }] := by
    decide
  have h3 : List.filter
      (fun n => TreeDiagram.visibleWalk
        [{ exRoot2 with x := -1000, y := -1000 }, { exChild2 with x := -1000, y := -1000 }] 3 n)
      [exRoot2, exChild2] = [exRoot2, exChild2] := by decide
  have h4 : List.find? (fun n => !optTruthy n.parentId) [exRoot2, exChild2] = some exRoot2 := by
    decide
  have hq1 : (("night-English-0-0" : String) == "niht-Old English-1-0") = false := by decide
  have hq2 : (("niht-Old English-1-0" : String) == "night-English-0-0") = false := by decide
  have hq3 : ¬(("night-English-0-0" : String) = "niht-Old English-1-0") := by decide
  have hq4 : ¬(("niht-Old English-1-0" : String) = "night-English-0-0") := by decide
  have h5 : TreeDiagram.calculateSubtreeDimensions [exRoot2, exChild2] 3
      [{ exRoot2 with x := -1000, y := -1000 }, { exChild2 with x := -1000, y := -1000 }]
      exRoot2.id =
      ([{ exRoot2 with x := -1000, y := -1000, subtreeHeight := 80, subtreeWidth := 740 },
        { exChild2 with x := -1000, y := -1000, subtreeHeight := 80, subtreeWidth := 220 }],
        80, 740) := by
    norm_num [TreeDiagram.calculateSubtreeDimensions, TreeDiagram.dimsWalk, getNode, setNode,
      List.find?_cons_of_pos, List.find?_cons_of_neg, List.find?_nil,
      hq1, hq2, hq3, hq4,
      exRoot2, exChild2, TreeDiagram.NODE_WIDTH, TreeDiagram.NODE_HEIGHT,
      TreeDiagram.VERTICAL_SPACING, TreeDiagram.LEVEL_OFFSET]
  have h6 : TreeDiagram.positionSubtree [exRoot2, exChild2] 3
      [{ exRoot2 with x := -1000, y := -1000, subtreeHeight := 80, subtreeWidth := 740 },
       { exChild2 with x := -1000, y := -1000, subtreeHeight := 80, subtreeWidth := 220 }]
      exRoot2.id (TreeDiagram.NODE_WIDTH / 2) (600 / 2 - exRoot2.subtreeHeight / 2) =
      ([{ exRoot2 with x := 110, y := 340, subtreeHeight := 80, subtreeWidth := 740 },
        { exChild2 with x := 410, y := 340, subtreeHeight := 80, subtreeWidth := 220 }],
        440) := by
    norm_num [TreeDiagram.positionSubtree, TreeDiagram.posWalk, getNode, setNode,
      List.find?_cons_of_pos, List.find?_cons_of_neg, List.find?_nil,
      hq1, hq2, hq3, hq4,
      exRoot2, exChild2, TreeDiagram.NODE_WIDTH, TreeDiagram.NODE_HEIGHT,
      TreeDiagram.VERTICAL_SPACING, TreeDiagram.LEVEL_OFFSET]
  have hx0r : exRoot2.x = 0 := rfl
  have hx0c : exChild2.x = 0 := rfl
  have hlev0 : exRoot2.level = 0 := rfl
  have hlev1 : exChild2.level = 1 := rfl
  have hbox : List.filter (fun n => decide ((-1000 : ℚ) < n.x)) [exRoot2, exChild2] =
      [exRoot2, exChild2] := by
    norm_num [List.filter_cons, List.filter_nil, hx0r, hx0c]
  have hmin : List.foldl (fun m n => m ⊓ (n.x - TreeDiagram.NODE_WIDTH / 2))
      (exRoot2.x - TreeDiagram.NODE_WIDTH / 2) [exChild2] = (-110 : ℚ) := by
    norm_num [List.foldl_cons, List.foldl_nil, hx0r, hx0c, TreeDiagram.NODE_WIDTH]
  have hmax : List.foldl (fun m n => m ⊔ (n.x + TreeDiagram.NODE_WIDTH / 2))
      (exRoot2.x + TreeDiagram.NODE_WIDTH / 2) [exChild2] = (110 : ℚ) := by
    norm_num [List.foldl_cons, List.foldl_nil, hx0r, hx0c, TreeDiagram.NODE_WIDTH]
  have hie : ([exRoot2, exChild2] : List MindmapNode).isEmpty = false := rfl
  have hlen : ([{ exRoot2 with x := -1000, y := -1000 },
      { exChild2 with x := -1000, y := -1000 }] : List MindmapNode).length + 1 = 3 := rfl
  simp only [TreeDiagram.calculateLayout, h1, hie, Bool.false_eq_true, if_false]
  rw [h2, hlen, h3, h4]
  simp only []
  rw [h5]
  simp only []
  rw [h6]
  simp only []
  rw [hbox]
  simp only []
  rw [hmin, hmax]
  norm_num [hlev0, hlev1]

/-- C4 (amended): in the Tiered Cartesian tree layout (for a normalized tree
whose ids are pairwise distinct, cf. C1), every positioned node at depth d
sits in a column whose horizontal offset from a common base is exactly
`d * LEVEL_OFFSET` — that is, each column is offset by `LEVEL_OFFSET = 300`
from the previous, not by `NODE_WIDTH + HORIZONTAL_SPACING = 340`, for every
input tree and viewport. -/
theorem c4_column_offset_amended (t : EtymologyTree) (W H : ℚ)
    (hN : idsNodup (TreeDiagram.flattenTree t none 0 0)) :
    ∃ B : ℚ, ∀ n ∈ TreeDiagram.calculateLayout (TreeDiagram.flattenTree t none 0 0) W H,
      n.x ≠ -1000 → n.x = B + (n.level : ℚ) * TreeDiagram.LEVEL_OFFSET :=
  TreeDiagram.layout_columns t W H hN

/-- C4 (witness): the amended theorem at the concrete chain `exChain2` in an
800 times 600 viewport. -/
theorem c4_column_offset_witness :
    idsNodup (TreeDiagram.flattenTree exChain2 none 0 0) ∧
      (∃ B : ℚ, ∀ n ∈ TreeDiagram.calculateLayout (TreeDiagram.flattenTree exChain2 none 0 0)
        800 600, n.x ≠ -1000 → n.x = B + (n.level : ℚ) * TreeDiagram.LEVEL_OFFSET) :=
  ⟨by unfold idsNodup; decide, c4_column_offset_amended exChain2 800 600
    (by unfold idsNodup; decide)⟩

/-- C8 (code bug, evaluation at the failing input): laying out the root-only
tree `exSingle` in an 800 times 600 viewport, the Flowchart variant produces
exactly one node centered at `(W/2, H/2) = (400, 300)` as the claim states,
but the Tiered (TreeDiagram) variant places its single node at `(510, 340)`,
not at the viewport center: its `calculateLayout` reads `subtreeHeight` and
the bounding box from the *input* nodes instead of the freshly computed map
copies, so a freshly normalized root-only list ends up offset by
`(NODE_WIDTH/2, NODE_HEIGHT/2)`.  No division error occurs in either. -/
theorem c8_single_node_layout_eval :
    (TreeDiagram.calculateLayout (TreeDiagram.flattenTree exSingle none 0 0) 800 600).map
        (fun n => (n.x, n.y)) = [(510, 340)] ∧
      (FlowchartDiagram.calculateLayout (FlowchartDiagram.flattenTree exSingle none 0 0)
        800 600).map (fun n => (n.x, n.y)) = [(400, 300)] ∧
      ((400 : ℚ), (300 : ℚ)) = ((800 : ℚ) / 2, (600 : ℚ) / 2) ∧
      ((510 : ℚ), (340 : ℚ)) ≠ ((800 : ℚ) / 2, (600 : ℚ) / 2) := by
  refine ⟨?_, ?_, by norm_num, by norm_num⟩
  · have hf : TreeDiagram.flattenTree exSingle none 0 0 = [exNode] := by decide
    rw [hf]
    norm_num [TreeDiagram.calculateLayout, exNode, mkNodesMap, getNode, setNode,
      TreeDiagram.visibleWalk, optTruthy, TreeDiagram.calculateSubtreeDimensions,
      TreeDiagram.positionSubtree, TreeDiagram.NODE_WIDTH, TreeDiagram.NODE_HEIGHT,
      TreeDiagram.VERTICAL_SPACING, TreeDiagram.LEVEL_OFFSET]
  · have hf : FlowchartDiagram.flattenTree exSingle none 0 0 =
        [{ id := "night-English-0-0", text := "English: night", word := "night",
           language := "English", languageFamily := "English", meaning := none,
           parentId := none, childrenIds := [], level := 0, isExpanded := true,
           x := 0, y := 0, width := 180, height := 90, color := "#D4A373",
           highlighted := false, subtreeHeight := 0, subtreeWidth := 0,
           childrenYStart := 0 }] := by
      decide
    rw [hf]
    norm_num [FlowchartDiagram.calculateLayout, mkNodesMap, getNode, setNode,
      List.eraseDups, List.eraseDups.loop, List.mergeSort_singleton, List.enum,
      List.enumFrom, FlowchartDiagram.NODE_WIDTH, FlowchartDiagram.NODE_HEIGHT,
      FlowchartDiagram.VERTICAL_SPACING, FlowchartDiagram.HORIZONTAL_SPACING]

namespace GeminiService

theorem fetch_ok_none_source : ∀ (r : Nat) (idx : Nat) (word : String)
    (oracle : Nat → Attempt),
    (fetchEtymology oracle word idx r).result = .ok none →
    ∃ j p, oracle j = .response none p ∨
      ∃ s, oracle j = .response (some s) p ∧ jsTrim s = "" := by
  intro r
  induction r with
  | zero =>
    intro idx word oracle h
    rw [fetchEtymology] at h
    cases horacle : oracle idx with
    | genError m =>
      rw [horacle] at h
      simp only [tryBody] at h
      simp at h
    | response txt p =>
      rw [horacle] at h
      simp only [tryBody] at h
      cases txt with
      | none =>
        exact ⟨idx, p, Or.inl horacle⟩
      | some s =>
        by_cases hs : (jsTrim s == "") = true
        · exact ⟨idx, p, Or.inr ⟨s, horacle, by simpa using hs⟩⟩
        · simp only [Option.map_some', Option.getD_some] at h
          rw [if_neg hs] at h
          cases p with
          | ok tree => simp at h
          | err m => simp at h
  | succ r ih =>
    intro idx word oracle h
    rw [fetchEtymology] at h
    cases horacle : oracle idx with
    | genError m =>
      rw [horacle] at h
      simp only [tryBody] at h
      by_cases hc : jsIncludes m "429" ∧ 0 < r + 1
      · rw [dif_pos hc] at h
        simp only [] at h
        rcases ih (idx + 1) word oracle (by simpa using h) with ⟨j, p, hj⟩
        exact ⟨j, p, hj⟩
      · rw [dif_neg hc] at h
        simp at h
    | response txt p =>
      rw [horacle] at h
      simp only [tryBody] at h
      cases txt with
      | none => exact ⟨idx, p, Or.inl horacle⟩
      | some s =>
        by_cases hs : (jsTrim s == "") = true
        · exact ⟨idx, p, Or.inr ⟨s, horacle, by simpa using hs⟩⟩
        · simp only [Option.map_some', Option.getD_some] at h
          rw [if_neg hs] at h
          cases p with
          | ok tree => simp at h
          | err m =>
            simp only [] at h
            by_cases hc : jsIncludes m "429" ∧ 0 < r + 1
            · rw [dif_pos hc] at h
              rcases ih (idx + 1) word oracle (by simpa using h) with ⟨j, p2, hj⟩
              exact ⟨j, p2, hj⟩
            · rw [dif_neg hc] at h
              simp at h

end GeminiService

/-- C5 (confirmed): `fetchEtymology` retries only failures whose message
contains `'429'` (the rate-limiting class), at most 3 times with increasing
backoff delays of 1000, 2000 and 3000 ms.  Three rate-limited failures
followed by a success resolve with the successful tree after exactly those
3 retries; a fourth consecutive rate-limited failure exhausts the budget and
rejects instead of retrying; a non-rate-limit failure is never retried. -/
theorem c5_retry_backoff :
    (∀ (word txt : String) (tree : EtymologyTree) (m0 m1 m2 : String)
      (oracle : Nat → GeminiService.Attempt),
      oracle 0 = .genError m0 → oracle 1 = .genError m1 → oracle 2 = .genError m2 →
      oracle 3 = .response (some txt) (.ok tree) → jsTrim txt ≠ "" →
      jsIncludes m0 "429" = true → jsIncludes m1 "429" = true →
      jsIncludes m2 "429" = true →
      (GeminiService.fetchEtymology oracle word 0 3).result = .ok (some tree) ∧
        (GeminiService.fetchEtymology oracle word 0 3).delays = [1000, 2000, 3000]) ∧
    (∀ (word m0 m1 m2 m3 : String) (oracle : Nat → GeminiService.Attempt),
      oracle 0 = .genError m0 → oracle 1 = .genError m1 → oracle 2 = .genError m2 →
      oracle 3 = .genError m3 →
      jsIncludes m0 "429" = true → jsIncludes m1 "429" = true →
      jsIncludes m2 "429" = true → jsIncludes m3 "429" = true →
      (GeminiService.fetchEtymology oracle word 0 3).result = .error m3 ∧
        (GeminiService.fetchEtymology oracle word 0 3).delays = [1000, 2000, 3000]) ∧
    (∀ (word m : String) (oracle : Nat → GeminiService.Attempt) (retries : Nat),
      oracle 0 = .genError m → jsIncludes m "429" = false →
      (GeminiService.fetchEtymology oracle word 0 retries).result = .error m ∧
        (GeminiService.fetchEtymology oracle word 0 retries).delays = []) := by
  refine ⟨?_, ?_, ?_⟩
  · intro word txt tree m0 m1 m2 oracle h0 h1 h2 h3 htxt h4290 h4291 h4292
    have hne : (jsTrim txt == "") = false := by simpa using htxt
    rw [GeminiService.fetchEtymology]
    simp only [h0, GeminiService.tryBody]
    rw [dif_pos ⟨h4290, by norm_num⟩]
    rw [GeminiService.fetchEtymology]
    simp only [h1, GeminiService.tryBody, Nat.reduceAdd, Nat.reduceSub]
    rw [dif_pos ⟨h4291, by norm_num⟩]
    rw [GeminiService.fetchEtymology]
    simp only [h2, GeminiService.tryBody, Nat.reduceAdd, Nat.reduceSub]
    rw [dif_pos ⟨h4292, by norm_num⟩]
    rw [GeminiService.fetchEtymology]
    simp only [h3, GeminiService.tryBody, Nat.reduceAdd, Nat.reduceSub]
    simp only [Option.map_some', Option.getD_some, hne, Bool.false_eq_true, if_false]
    constructor
    · trivial
    · norm_num
  · intro word m0 m1 m2 m3 oracle h0 h1 h2 h3 h4290 h4291 h4292 h4293
    rw [GeminiService.fetchEtymology]
    simp only [h0, GeminiService.tryBody]
    rw [dif_pos ⟨h4290, by norm_num⟩]
    rw [GeminiService.fetchEtymology]
    simp only [h1, GeminiService.tryBody, Nat.reduceAdd, Nat.reduceSub]
    rw [dif_pos ⟨h4291, by norm_num⟩]
    rw [GeminiService.fetchEtymology]
    simp only [h2, GeminiService.tryBody, Nat.reduceAdd, Nat.reduceSub]
    rw [dif_pos ⟨h4292, by norm_num⟩]
    rw [GeminiService.fetchEtymology]
    simp only [h3, GeminiService.tryBody, Nat.reduceAdd, Nat.reduceSub]
    rw [dif_neg (by simp)]
    constructor
    · trivial
    · norm_num
  · intro word m oracle retries h0 h429
    rw [GeminiService.fetchEtymology]
    simp only [h0, GeminiService.tryBody]
    rw [dif_neg (by simp [h429])]
    exact ⟨rfl, rfl⟩

/-- C5 (witness): the retry/backoff theorem applied to a concrete oracle
giving three rate-limited errors and then a parsed tree. -/
theorem c5_retry_backoff_witness :
    ((GeminiService.fetchEtymology
        (fun k => if k < 3 then .genError "HTTP 429 quota" else
          .response (some "json") (.ok exTreeA)) "night" 0 3).result = .ok (some exTreeA) ∧
      (GeminiService.fetchEtymology
        (fun k => if k < 3 then .genError "HTTP 429 quota" else
          .response (some "json") (.ok exTreeA)) "night" 0 3).delays = [1000, 2000, 3000]) :=
  c5_retry_backoff.1 "night" "json" exTreeA "HTTP 429 quota" "HTTP 429 quota" "HTTP 429 quota"
    (fun k => if k < 3 then .genError "HTTP 429 quota" else
      .response (some "json") (.ok exTreeA))
    rfl rfl rfl rfl (by decide) (by decide) (by decide) (by decide)

/-- C10 (confirmed): at the public interface, `fetchEtymology` resolves to
`null` exactly when the response text is missing or trims to empty (parts 1,
2 and the converse part 4); a response that parses yields the tree even when
its root has no children — logging only the depth-check warning, not a
failure (part 3); and an error other than a retryable rate limit — whether
from the request or from parsing — is propagated as a rejection, not a
returned value (parts 5 and 6). -/
theorem c10_fetch_null_and_errors :
    (∀ (word : String) (p : GeminiService.JsonResult)
      (oracle : Nat → GeminiService.Attempt) (r : Nat),
      oracle 0 = .response none p →
      GeminiService.fetchEtymology oracle word 0 r = ⟨.ok none, [], []⟩) ∧
    (∀ (word s : String) (p : GeminiService.JsonResult)
      (oracle : Nat → GeminiService.Attempt) (r : Nat),
      oracle 0 = .response (some s) p → jsTrim s = "" →
      GeminiService.fetchEtymology oracle word 0 r = ⟨.ok none, [], []⟩) ∧
    (∀ (word s : String) (tree : EtymologyTree)
      (oracle : Nat → GeminiService.Attempt) (r : Nat),
      oracle 0 = .response (some s) (.ok tree) → jsTrim s ≠ "" →
      (GeminiService.fetchEtymology oracle word 0 r).result = .ok (some tree) ∧
        (GeminiService.fetchEtymology oracle word 0 r).warnings =
          (if tree.children.isEmpty then [GeminiService.depthWarning word] else [])) ∧
    (∀ (word : String) (oracle : Nat → GeminiService.Attempt) (r : Nat),
      (GeminiService.fetchEtymology oracle word 0 r).result = .ok none →
      ∃ j p, oracle j = .response none p ∨
        ∃ s, oracle j = .response (some s) p ∧ jsTrim s = "") ∧
    (∀ (word m : String) (oracle : Nat → GeminiService.Attempt) (r : Nat),
      oracle 0 = .genError m → jsIncludes m "429" = false →
      (GeminiService.fetchEtymology oracle word 0 r).result = .error m) ∧
    (∀ (word s m : String) (oracle : Nat → GeminiService.Attempt) (r : Nat),
      oracle 0 = .response (some s) (.err m) → jsTrim s ≠ "" →
      jsIncludes m "429" = false →
      (GeminiService.fetchEtymology oracle word 0 r).result = .error m) := by
  refine ⟨?_, ?_, ?_, ?_, ?_, ?_⟩
  · intro word p oracle r h0
    rw [GeminiService.fetchEtymology]
    simp [h0, GeminiService.tryBody]
  · intro word s p oracle r h0 hs
    rw [GeminiService.fetchEtymology]
    simp [h0, GeminiService.tryBody, hs]
  · intro word s tree oracle r h0 hs
    have hne : (jsTrim s == "") = false := by simpa using hs
    rw [GeminiService.fetchEtymology]
    simp [h0, GeminiService.tryBody, hne]
  · intro word oracle r h
    exact GeminiService.fetch_ok_none_source r 0 word oracle h
  · intro word m oracle r h0 h429
    rw [GeminiService.fetchEtymology]
    simp only [h0, GeminiService.tryBody]
    rw [dif_neg (by simp [h429])]
  · intro word s m oracle r h0 hs h429
    have hne : (jsTrim s == "") = false := by simpa using hs
    rw [GeminiService.fetchEtymology]
    simp only [h0, GeminiService.tryBody, Option.map_some', Option.getD_some, hne,
      Bool.false_eq_true, if_false]
    rw [dif_neg (by simp [h429])]

/-- C10 (witness): concrete instances — a response with missing text
resolves to `null` with no logs; a childless parsed tree is returned with
exactly the depth-check warning; a non-429 error rejects. -/
theorem c10_fetch_null_and_errors_witness :
    GeminiService.fetchEtymology (fun _ => .response none (.err "nope")) "w" 0 3 =
      ⟨.ok none, [], []⟩ ∧
    ((GeminiService.fetchEtymology (fun _ => .response (some "json") (.ok exTreeA)) "w" 0 3).result
        = .ok (some exTreeA) ∧
      (GeminiService.fetchEtymology
        (fun _ => .response (some "json") (.ok exTreeA)) "w" 0 3).warnings =
        [GeminiService.depthWarning "w"]) ∧
    (GeminiService.fetchEtymology (fun _ => .genError "boom") "w" 0 3).result = .error "boom" :=
  ⟨c10_fetch_null_and_errors.1 "w" (.err "nope") (fun _ => .response none (.err "nope")) 3 rfl,
    ⟨(c10_fetch_null_and_errors.2.2.1 "w" "json" exTreeA
        (fun _ => .response (some "json") (.ok exTreeA)) 3 rfl (by decide)).1,
      (c10_fetch_null_and_errors.2.2.1 "w" "json" exTreeA
        (fun _ => .response (some "json") (.ok exTreeA)) 3 rfl (by decide)).2⟩,
    c10_fetch_null_and_errors.2.2.2.2.1 "w" "boom" (fun _ => .genError "boom") 3 rfl (by decide)⟩

/-- C3 (counterexample): issue search "A", then search "B" while "A" is still
in flight, then let the fetch resolve with A's tree.  The second search is
swallowed by the `isLoading` guard — after it, the pending request is still
A's — and A's tree is what ends up rendered, with the displayed search word
still "A": the claimed supersession never happens. -/
theorem c3_cancellation_counterexample :
    (App.run App.initialState [.bloom "A", .bloom "B"]).pending = some "A" ∧
    (App.run App.initialState [.bloom "A", .bloom "B",
        .resolve (.ok (some exTreeA))]).etymologyData = some exTreeA ∧
    (App.run App.initialState [.bloom "A", .bloom "B",
        .resolve (.ok (some exTreeA))]).currentSearchWord = "A" :=
  ⟨rfl, rfl, rfl⟩

/-- C3 (amended): while a request is in flight (`isLoading`), any further
search action is a no-op — in particular, a run that blooms `a`, then blooms
any `b` before the resolution, is indistinguishable from one that never
issued `b`.  There is no cancellation: the first request stays the one whose
result renders. -/
theorem c3_cancellation_amended :
    (∀ (s : App.AppState) (w : String), s.isLoading = true →
      App.step s (.bloom w) = s) ∧
    (∀ (s : App.AppState) (a b : String)
      (out : Except String (Option EtymologyTree)), a ≠ "" → s.isLoading = false →
      App.run s [.bloom a, .bloom b, .resolve out] =
        App.run s [.bloom a, .resolve out]) := by
  constructor
  · intro s w h
    simp [App.step, h]
  · intro s a b out ha hl
    have ha' : (a == "") = false := by simpa using ha
    simp [App.run, App.step, ha', hl]

/-- C3 (witness): the amended no-op law at a concrete run. -/
theorem c3_cancellation_witness :
    App.run App.initialState [.bloom "A", .bloom "B", .resolve (.ok (some exTreeA))] =
      App.run App.initialState [.bloom "A", .resolve (.ok (some exTreeA))] :=
  c3_cancellation_amended.2 App.initialState "A" "B" (.ok (some exTreeA))
    (by decide) rfl

/-- C6 (code bug): with root word "magic" and query "mag" — a case-insensitive
substring match, as the second conjunct checks — both tree flatteners still
emit the node with `highlighted = false`; the field is hard-wired to `false`
at construction and never updated from the query anywhere. -/
theorem c6_search_highlighting_bug :
    jsIncludes (jsToLower "magic") (jsToLower "mag") = true ∧
    (TreeDiagram.flattenTree exMagic none 0 0).map (fun n => n.highlighted) = [false] ∧
    (FlowchartDiagram.flattenTree exMagic none 0 0).map (fun n => n.highlighted) = [false] := by
  decide

/-- C9 (counterexample): the user submits `" magic "`.  `SearchInput` passes
the trim-test but forwards the raw string, so the word handed to the fetch
is `" magic "` itself — which is not trimmed of surrounding whitespace. -/
theorem c9_trimmed_word_counterexample :
    App.sentWord " magic " false = some " magic " ∧ jsTrim " magic " ≠ " magic " := by
  decide

/-- C9 (amended): whenever a word reaches the fetch, it is the *raw* input
string — sent only when its trim is non-empty and no request is in flight,
but carrying whatever surrounding whitespace the user typed. -/
theorem c9_trimmed_word_amended :
    ∀ (w : String) (loading : Bool) (s : String),
      App.sentWord w loading = some s →
      s = w ∧ jsTrim w ≠ "" ∧ loading = false := by
  intro w loading s h
  unfold App.sentWord SearchInput.handleBloom at h
  cases hb : (jsTrim w == "") with
  | true => rw [hb] at h; simp at h
  | false =>
    rw [hb] at h
    simp only [Bool.not_false, if_true] at h
    cases hc : (w == "" || loading) with
    | true => rw [hc] at h; simp at h
    | false =>
      rw [hc] at h
      simp only [Bool.false_eq_true, if_false, Option.some_inj] at h
      refine ⟨h.symm, by simpa using hb, ?_⟩
      exact (Bool.or_eq_false_iff.mp hc).2

/-- C9 (witness): the amended law at the raw input `" magic "`. -/
theorem c9_trimmed_word_witness :
    App.sentWord " magic " false = some " magic " ∧
    (" magic " = " magic " ∧ jsTrim " magic " ≠ "" ∧ false = false) :=
  ⟨by decide, c9_trimmed_word_amended " magic " false " magic " (by decide)⟩
